import Mathlib

/-!
# Reverse varint codec (`rvarint`)

A shallow embedding of `rvarint.go` and a verification of its encode/decode
contract.

Conventions of the embedding:

* a Go `[]byte` is a `List Nat` whose elements are below `256` (`IsBuf`);
* a Go `uint64` is a `Nat` below `2 ^ 64` (`IsUint64`), with `% 2 ^ 64` written
  out wherever the Go operation can wrap;
* a Go `int64` is an `Int` in `[-2 ^ 63, 2 ^ 63)` (`IsInt64`);
* a Go `int` (lengths, indices, byte counts) is an `Int`;
* a function that can panic with an index out of range returns an `Outcome`.
-/

namespace Rvarint

/-! ## Machine integers -/

/-- A value of Go type `byte`. -/
def IsByte (b : Nat) : Prop := b < 256

/-- A value of Go type `[]byte`: every element is a byte. -/
def IsBuf (buf : List Nat) : Prop := ∀ b ∈ buf, b < 256

/-- A value of Go type `uint64`. -/
def IsUint64 (x : Nat) : Prop := x < 2 ^ 64

/-- A value of Go type `int64`. -/
def IsInt64 (x : Int) : Prop := -(2 ^ 63) ≤ x ∧ x < 2 ^ 63

instance (b : Nat) : Decidable (IsByte b) := by unfold IsByte; infer_instance
instance (buf : List Nat) : Decidable (IsBuf buf) := by unfold IsBuf; infer_instance
instance (x : Nat) : Decidable (IsUint64 x) := by unfold IsUint64; infer_instance
instance (x : Int) : Decidable (IsInt64 x) := by unfold IsInt64; infer_instance

/-- Go conversion `byte(x)` of an unsigned integer: keeps the low 8 bits. -/
def byte (x : Nat) : Nat := x % 256

/-- Go conversion `uint64(x)` of an `int64`: two's complement reinterpretation. -/
def uint64 (x : Int) : Nat := (x % 2 ^ 64).toNat

/-- Go conversion `int64(u)` of a `uint64`: two's complement reinterpretation. -/
def int64 (u : Nat) : Int :=
  if u % 2 ^ 64 < 2 ^ 63 then ((u % 2 ^ 64 : Nat) : Int) else ((u % 2 ^ 64 : Nat) : Int) - 2 ^ 64

/-- Go conversion `uint(n)` of an `int` (64-bit platform). -/
def uint (n : Int) : Nat := (n % 2 ^ 64).toNat

/-- Wrapping subtraction `a - b` on Go `uint`. -/
def uintSub (a b : Nat) : Nat := (a + (2 ^ 64 - b % 2 ^ 64)) % 2 ^ 64

/-- Go shift `x << s` on `uint64`: bits shifted past bit 63 are dropped. -/
def shl64 (x s : Nat) : Nat := (x <<< s) % 2 ^ 64

/-- Go bitwise complement `^u` on `uint64`. -/
def not64 (u : Nat) : Nat := 2 ^ 64 - 1 - u % 2 ^ 64

/-- Go bitwise complement `^x` on `int64`. -/
def notInt64 (x : Int) : Int := -x - 1

/-- Number of binary digits of `x`, counting at most `fuel` of them. -/
def bitLen : Nat → Nat → Nat
  | 0, _ => 0
  | fuel + 1, x => if x = 0 then 0 else bitLen fuel (x / 2) + 1

/-- Go `bits.Len64`: the minimum number of bits required to represent the
`uint64` `x`; the result is `0` for `x = 0`. -/
def Len64 (x : Nat) : Int := ((bitLen 64 x : Nat) : Int)

/-! ## Constants -/

/-- Maximum length of a varint-encoded 16-bit integer. -/
def MaxVarintLen16 : Int := 3

/-- Maximum length of a varint-encoded 32-bit integer. -/
def MaxVarintLen32 : Int := 5

/-- Maximum length of a varint-encoded 64-bit integer. -/
def MaxVarintLen64 : Int := 10

/-! ## Encoder -/

/-- The loop `for ; n > 0; n-- { buf = append(buf, byte(x>>sh)|0x80); sh -= 7 }`
of `AppendUvarint`; the first argument is the loop counter `n`. -/
def AppendUvarintLoop (x : Nat) : Nat → Nat → List Nat → List Nat
  | 0, _, buf => buf
  | n + 1, sh, buf =>
    AppendUvarintLoop x n (uintSub sh 7) (buf ++ [byte (x >>> sh) ||| 0x80])

/-- `AppendUvarint` appends the reverse varint-encoded form of `x` to `buf`
and returns the extended buffer. -/
def AppendUvarint (buf : List Nat) (x : Nat) : List Nat :=
  let n : Int := Int.tdiv (Len64 x - 1) 7
  let sh : Nat := uint (n * 7)
  let buf := buf ++ [byte (x >>> sh) &&& 0x7f]
  let sh := uintSub sh 7
  AppendUvarintLoop x n.toNat sh buf

/-- Result of a function that may panic. -/
inductive Outcome (α : Type) where
  /-- Normal return. -/
  | ret (a : α) : Outcome α
  /-- Run-time panic "index out of range"; `buf` is the content of the
  destination buffer at the moment of the panic. -/
  | fault (buf : List Nat) : Outcome α
  /-- The iteration budget of the embedding was exhausted. -/
  | diverge : Outcome α
  deriving DecidableEq

/-- The indexed store `buf[i] = v`; `none` when `i` is out of range. -/
def store (buf : List Nat) (i : Int) (v : Nat) : Option (List Nat) :=
  if 0 ≤ i ∧ i < (buf.length : Int) then some (buf.set i.toNat v) else none

/-- The loop `for x >= 0x80 { buf[i] = byte(x) | 0x80; x >>= 7; i-- }` of
`PutUvarint`, with an iteration budget; returns the final `buf`, `x`, `i`. -/
def PutUvarintLoop : Nat → List Nat → Nat → Int → Outcome (List Nat × Nat × Int)
  | 0, _, _, _ => Outcome.diverge
  | fuel + 1, buf, x, i =>
    if x ≥ 0x80 then
      match store buf i (byte x ||| 0x80) with
      | none => Outcome.fault buf
      | some buf1 => PutUvarintLoop fuel buf1 (x >>> 7) (i - 1)
    else Outcome.ret (buf, x, i)

/-- `PutUvarint` encodes a `uint64` into `buf` and returns the number of bytes
written, together with the updated buffer. If the buffer is too small,
`PutUvarint` panics. -/
def PutUvarint (buf : List Nat) (x : Nat) : Outcome (List Nat × Int) :=
  let n : Int := Int.tdiv (Len64 x - 1) 7
  match PutUvarintLoop 64 buf x n with
  | Outcome.ret (buf1, x1, i) =>
    match store buf1 i (byte x1) with
    | none => Outcome.fault buf1
    | some buf2 => Outcome.ret (buf2, n + 1)
  | Outcome.fault b => Outcome.fault b
  | Outcome.diverge => Outcome.diverge

/-- `AppendVarint` appends the varint-encoded form of the `int64` `x` to `buf`
and returns the extended buffer. -/
def AppendVarint (buf : List Nat) (x : Int) : List Nat :=
  let ux := shl64 (uint64 x) 1
  let ux := if x < 0 then not64 ux else ux
  AppendUvarint buf ux

/-- `PutVarint` encodes an `int64` into `buf` and returns the number of bytes
written. If the buffer is too small, `PutVarint` panics. -/
def PutVarint (buf : List Nat) (x : Int) : Outcome (List Nat × Int) :=
  let ux := shl64 (uint64 x) 1
  let ux := if x < 0 then not64 ux else ux
  PutUvarint buf ux

/-! ## Decoder -/

/-- The loop `for i := len(buf) - 1; i >= 0; i--` of `Uvarint`. The first
argument is `i + 1`, so `0` means the loop condition `i >= 0` fails; then come
the accumulator `x` and the shift `s`. -/
def UvarintLoop (buf : List Nat) : Nat → Nat → Nat → Nat × Int
  | 0, _, _ => (0, 0)
  | i + 1, x, s =>
    if (buf.length : Int) - (i : Int) > MaxVarintLen64 then
      (0, -((buf.length : Int) - (i : Int)))
    else
      let b := buf.getD i 0
      if b < 0x80 then
        if (buf.length : Int) - (i : Int) > MaxVarintLen64 - 1 ∧ b > 1 then
          (0, -((buf.length : Int) - (i : Int)))
        else
          (x ||| shl64 b s, (buf.length : Int) - (i : Int))
      else
        UvarintLoop buf i (x ||| shl64 (b &&& 0x7f) s) (s + 7)

/-- `Uvarint` decodes a `uint64` from the end of `buf` and returns that value
and the number of bytes read (`> 0`). If an error occurred, the value is `0`
and the number of bytes `n` is `<= 0`. -/
def Uvarint (buf : List Nat) : Nat × Int :=
  UvarintLoop buf buf.length 0 0

/-- `Varint` decodes an `int64` from the end of `buf` and returns that value
and the number of bytes read. -/
def Varint (buf : List Nat) : Int × Int :=
  let r := Uvarint buf
  let ux := r.1
  let n := r.2
  let x := int64 (ux >>> 1)
  let x := if ux &&& 1 ≠ 0 then notInt64 x else x
  (x, n)


/-! ## Specification-side definitions -/

/-- The number `n` computed on the first line of `AppendUvarint` and of
`PutUvarint`, as a natural number. -/
def encN (x : Nat) : Nat := (Int.tdiv (Len64 x - 1) 7).toNat

/-- The continuation bytes of the encoding of `x`, least significant group
first: `[g_0 | 0x80, ..., g_(n-1) | 0x80]`. -/
def contLE : Nat → Nat → List Nat
  | 0, _ => []
  | n + 1, x => (x % 128 + 128) :: contLE n (x / 128)

/-- Little-endian base-128 value of a list of bytes, ignoring the high bits. -/
def valLE : List Nat → Nat
  | [] => 0
  | b :: l => b % 128 + 128 * valLE l

/-- The decoding loop of `Uvarint` run over the bytes still to be scanned, last
byte of the buffer first; `c` is the number of bytes scanned including the
head of the list. -/
def scan : List Nat → Nat → Nat → Nat → Nat × Int
  | [], _, _, _ => (0, 0)
  | b :: rest, c, x, s =>
    if c > 10 then (0, -(c : Int))
    else if b < 0x80 then
      if c > 9 ∧ b > 1 then (0, -(c : Int)) else (x ||| shl64 b s, (c : Int))
    else scan rest (c + 1) (x ||| shl64 (b &&& 0x7f) s) (s + 7)

/-- The zig-zag image computed by `AppendVarint` and `PutVarint` before they
call the unsigned encoder. -/
def zig (x : Int) : Nat :=
  let ux := shl64 (uint64 x) 1
  if x < 0 then not64 ux else ux

/-- The inverse zig-zag step applied by `Varint` to the unsigned result. -/
def zag (ux : Nat) : Int :=
  let x := int64 (ux >>> 1)
  if ux &&& 1 ≠ 0 then notInt64 x else x

/-- The first loop of `ExampleAppendUvarint`: every value is appended to the
buffer in order. -/
def appendAll (buf : List Nat) (values : List Nat) : List Nat :=
  values.foldl AppendUvarint buf

/-- The read-back loop of `ExampleAppendUvarint`, run `k` times: decode from
the tail, stop (`none`) when the count is `<= 0`, otherwise record the value
and truncate with `buf = buf[:len(buf)-n]`. Returns the values in the order
they were read and the remaining buffer. -/
def readBack : Nat → List Nat → Option (List Nat × List Nat)
  | 0, buf => some ([], buf)
  | k + 1, buf =>
    let r := Uvarint buf
    if r.2 ≤ 0 then none
    else
      match readBack k (buf.take ((buf.length : Int) - r.2).toNat) with
      | none => none
      | some (ys, rest) => some (r.1 :: ys, rest)

/-- The bit length used by the specification of the encoder: the number of
binary digits of `x`, with `bitlength 0 = 1`. -/
def bitlength (x : Nat) : Nat := Nat.log2 x + 1

/-- The zig-zag mapping in the words of the specification: a non-negative `x`
maps to `2x`, a negative `x` maps to `2|x| - 1`. -/
def zigzagSpec (x : Int) : Nat := if 0 ≤ x then (2 * x).toNat else (2 * |x| - 1).toNat

/-- The `k`-th byte of `buf` counted from the tail (`k = 0` is the last
byte). -/
def byteFromTail (buf : List Nat) (k : Nat) : Nat := buf.getD (buf.length - 1 - k) 0

/-- The last `n` bytes of `buf`, that is `buf[len(buf)-n:]`. -/
def lastBytes (buf : List Nat) (n : Nat) : List Nat := buf.drop (buf.length - n)

/-- The inverse zig-zag mapping in the words of the specification: `u >> 1`,
bit-complemented (`-x - 1`) when the low bit of `u` is set. -/
def unzigzagSpec (u : Nat) : Int :=
  if u &&& 1 ≠ 0 then -((u >>> 1 : Nat) : Int) - 1 else ((u >>> 1 : Nat) : Int)

/-! ## Bit-level facts -/

theorem and_7f (y : Nat) : y &&& 0x7f = y % 128 :=
  Nat.and_pow_two_sub_one_eq_mod y 7

theorem byte_and_7f (y : Nat) : byte y &&& 0x7f = y % 128 := by
  rw [and_7f, byte]; omega

theorem or_80_of_lt (b : Nat) (h : b < 128) : b ||| 0x80 = b + 128 := by
  have := Nat.mul_add_lt_is_or (i := 7) (b := b) (by simpa using h) 1
  simp only [Nat.reducePow, Nat.mul_one] at this
  rw [Nat.lor_comm, ← this]; omega

theorem byte_or_80 (y : Nat) : byte y ||| 0x80 = y % 128 + 128 := by
  have h1 : byte y = 128 * (y / 128 % 2) + y % 128 := by unfold byte; omega
  have h2 := Nat.mul_add_lt_is_or (i := 7) (b := y % 128) (by simpa using Nat.mod_lt y (by decide)) (y / 128 % 2)
  simp only [Nat.reducePow] at h2
  rcases Nat.mod_two_eq_zero_or_one (y / 128) with h | h
  · rw [h1, h]; simpa using or_80_of_lt (y % 128) (Nat.mod_lt y (by decide))
  · rw [h1, h2, h, Nat.lor_assoc, Nat.lor_comm (y % 128), ← Nat.lor_assoc]
    simp only [Nat.mul_one, Nat.or_self]
    rw [Nat.lor_comm]; exact or_80_of_lt (y % 128) (Nat.mod_lt y (by decide))

theorem or_shl_eq_add (x g j : Nat) (hx : x < 128 ^ j) :
    x ||| (g <<< (7 * j)) = x + 128 ^ j * g := by
  have h : (128 : Nat) ^ j = 2 ^ (7 * j) := by rw [pow_mul]; norm_num
  rw [Nat.shiftLeft_eq, Nat.lor_comm, Nat.mul_comm g, ← h]
  rw [h] at hx ⊢
  rw [← Nat.mul_add_lt_is_or hx]; omega

/-! ## `bits.Len64` -/

theorem bitLen_le_fuel (f x : Nat) : bitLen f x ≤ f := by
  induction f generalizing x with
  | zero => simp [bitLen]
  | succ f ih =>
    unfold bitLen
    split
    · omega
    · have := ih (x / 2); omega

theorem bitLen_le_iff (f x k : Nat) (hx : x < 2 ^ f) : bitLen f x ≤ k ↔ x < 2 ^ k := by
  induction f generalizing x k with
  | zero =>
    have : x = 0 := by simpa using hx
    subst this
    simp [bitLen]
  | succ f ih =>
    unfold bitLen
    by_cases h0 : x = 0
    · subst h0; simp
    · rw [if_neg h0]
      have hx2 : x / 2 < 2 ^ f := by rw [pow_succ] at hx; omega
      cases k with
      | zero => simp; omega
      | succ k =>
        rw [Nat.add_le_add_iff_right, ih (x / 2) k hx2, pow_succ]
        omega

theorem bitLen_eq_size (x : Nat) (hx : x < 2 ^ 64) : bitLen 64 x = Nat.size x := by
  apply le_antisymm
  · rw [bitLen_le_iff 64 x _ hx]; exact Nat.lt_size_self x
  · rw [Nat.size_le, ← bitLen_le_iff 64 x _ hx]

theorem encN_eq (x : Nat) : Int.tdiv (Len64 x - 1) 7 = (encN x : Int) := by
  unfold encN Len64
  have h := bitLen_le_fuel 64 x
  generalize bitLen 64 x = L at h
  interval_cases L <;> rfl

theorem encN_eq_div (x : Nat) : encN x = (bitLen 64 x - 1) / 7 := by
  unfold encN Len64
  have h := bitLen_le_fuel 64 x
  generalize bitLen 64 x = L at h
  interval_cases L <;> rfl

theorem encN_le (x : Nat) : encN x ≤ 9 := by
  rw [encN_eq_div]
  have h := bitLen_le_fuel 64 x
  omega

theorem pow128 (k : Nat) : (128 : Nat) ^ k = 2 ^ (7 * k) := by
  rw [pow_mul]; norm_num

theorem lt_pow_encN (x : Nat) (hx : x < 2 ^ 64) : x < 128 ^ (encN x + 1) := by
  rw [pow128, ← bitLen_le_iff 64 x _ hx, encN_eq_div]
  omega

theorem pow_encN_le (x : Nat) (hx : x < 2 ^ 64) (hn : encN x ≠ 0) : 128 ^ encN x ≤ x := by
  rw [pow128]
  by_contra hlt
  rw [not_le, ← bitLen_le_iff 64 x _ hx] at hlt
  rw [encN_eq_div] at hn hlt
  omega

theorem encN_le_of_lt (x k : Nat) (hx : x < 2 ^ 64) (hk : x < 128 ^ (k + 1)) : encN x ≤ k := by
  rw [pow128, ← bitLen_le_iff 64 x _ hx] at hk
  rw [encN_eq_div]
  omega

/-! ## Byte layout of the encoder -/

theorem contLE_length (n x : Nat) : (contLE n x).length = n := by
  induction n generalizing x with
  | zero => rfl
  | succ n ih => simp [contLE, ih]

theorem contLE_succ_right (n x : Nat) :
    contLE (n + 1) x = contLE n x ++ [x / 128 ^ n % 128 + 128] := by
  induction n generalizing x with
  | zero => simp [contLE]
  | succ n ih =>
    rw [contLE, ih (x / 128), contLE, Nat.div_div_eq_div_mul, ← pow_succ']
    rfl

theorem contLE_ge (n x : Nat) : ∀ y ∈ contLE n x, 128 ≤ y := by
  induction n generalizing x with
  | zero => simp [contLE]
  | succ n ih =>
    intro y hy
    simp only [contLE, List.mem_cons] at hy
    rcases hy with h | h
    · omega
    · exact ih _ y h

theorem contLE_lt (n x : Nat) : ∀ y ∈ contLE n x, y < 256 := by
  induction n generalizing x with
  | zero => simp [contLE]
  | succ n ih =>
    intro y hy
    simp only [contLE, List.mem_cons] at hy
    rcases hy with h | h
    · omega
    · exact ih _ y h

theorem uintSub_seven (k : Nat) (hk : k ≤ 9) : uintSub (7 * (k + 1)) 7 = 7 * k := by
  unfold uintSub; omega

theorem AppendUvarintLoop_eq (x k : Nat) (buf : List Nat) (hk : k ≤ 9) :
    AppendUvarintLoop x k (uintSub (7 * k) 7) buf = buf ++ (contLE k x).reverse := by
  induction k generalizing buf with
  | zero => simp [AppendUvarintLoop, contLE]
  | succ k ih =>
    rw [uintSub_seven k (by omega), AppendUvarintLoop, ih _ (by omega), contLE_succ_right,
      byte_or_80, Nat.shiftRight_eq_div_pow, ← pow128]
    simp

/-- The bytes appended by `AppendUvarint`: the top group, then the
continuation bytes from the most significant to the least significant. -/
theorem AppendUvarint_eq (p : List Nat) (x : Nat) (hx : x < 2 ^ 64) :
    AppendUvarint p x = p ++ (x / 128 ^ encN x) :: (contLE (encN x) x).reverse := by
  have hn := encN_le x
  have hlt := lt_pow_encN x hx
  have hu : uint ((encN x : Int) * 7) = 7 * encN x := by unfold uint; omega
  have htop : byte (x >>> (7 * encN x)) &&& 0x7f = x / 128 ^ encN x := by
    rw [byte_and_7f, Nat.shiftRight_eq_div_pow, ← pow128]
    apply Nat.mod_eq_of_lt
    rw [Nat.div_lt_iff_lt_mul (by positivity), ← pow_succ']
    rw [pow_succ] at hlt ⊢
    omega
  simp only [AppendUvarint, encN_eq, hu, Int.toNat_ofNat, htop]
  rw [AppendUvarintLoop_eq x _ _ hn]
  simp

theorem AppendUvarint_length (p : List Nat) (x : Nat) (hx : x < 2 ^ 64) :
    (AppendUvarint p x).length = p.length + (encN x + 1) := by
  rw [AppendUvarint_eq p x hx]
  simp [contLE_length]

theorem top_lt (x : Nat) (hx : x < 2 ^ 64) : x / 128 ^ encN x < 128 := by
  have hlt := lt_pow_encN x hx
  rw [Nat.div_lt_iff_lt_mul (by positivity), ← pow_succ']
  rw [pow_succ] at hlt ⊢
  omega
/-! ## The decoder as a scan over the reversed buffer -/

theorem scan_nil (c x s : Nat) : scan [] c x s = (0, 0) := rfl

theorem scan_cons (b : Nat) (rest : List Nat) (c x s : Nat) :
    scan (b :: rest) c x s =
      if c > 10 then (0, -(c : Int))
      else if b < 0x80 then
        if c > 9 ∧ b > 1 then (0, -(c : Int)) else (x ||| shl64 b s, (c : Int))
      else scan rest (c + 1) (x ||| shl64 (b &&& 0x7f) s) (s + 7) := rfl

theorem valLE_nil : valLE [] = 0 := rfl

theorem valLE_cons (b : Nat) (l : List Nat) : valLE (b :: l) = b % 128 + 128 * valLE l := rfl

theorem UvarintLoop_eq_scan (buf : List Nat) (j x s : Nat) (hj : j ≤ buf.length) :
    UvarintLoop buf j x s = scan (buf.take j).reverse (buf.length - j + 1) x s := by
  induction j generalizing x s with
  | zero => simp [UvarintLoop, scan_nil]
  | succ j ih =>
    have hlt : j < buf.length := hj
    have htake : (buf.take (j + 1)).reverse = buf[j] :: (buf.take j).reverse := by
      rw [← List.take_concat_get buf j hlt]; simp
    have hc : ((buf.length : Int) - (j : Int)) = ((buf.length - (j + 1) + 1 : Nat) : Int) := by
      omega
    have hc2 : buf.length - (j + 1) + 1 + 1 = buf.length - j + 1 := by omega
    rw [UvarintLoop, htake, scan_cons]
    simp only [hc, List.getD_eq_getElem buf 0 hlt, ih _ _ (le_of_lt hlt), hc2, MaxVarintLen64,
      gt_iff_lt]
    have e1 : ((10 : Int) < ((buf.length - (j + 1) + 1 : Nat) : Int)) ↔
        10 < buf.length - (j + 1) + 1 := by omega
    have e2 : ((10 : Int) - 1 < ((buf.length - (j + 1) + 1 : Nat) : Int)) ↔
        9 < buf.length - (j + 1) + 1 := by omega
    simp only [e1, e2]

theorem Uvarint_eq_scan (buf : List Nat) : Uvarint buf = scan buf.reverse 1 0 0 := by
  rw [Uvarint, UvarintLoop_eq_scan buf _ 0 0 (le_refl _)]
  simp

theorem valLE_append (l1 l2 : List Nat) :
    valLE (l1 ++ l2) = valLE l1 + 128 ^ l1.length * valLE l2 := by
  induction l1 with
  | nil => simp [valLE_nil]
  | cons b l ih =>
    simp only [List.cons_append, valLE_cons, ih, List.length_cons, pow_succ]
    ring

theorem valLE_lt (l : List Nat) : valLE l < 128 ^ l.length := by
  induction l with
  | nil => simp [valLE_nil]
  | cons b l ih =>
    simp only [valLE_cons, List.length_cons, pow_succ]
    have := Nat.mod_lt b (show 0 < 128 by decide)
    omega

theorem shl64_group (g j : Nat) (hg : g < 128) (hj : j ≤ 8) :
    shl64 g (7 * j) = g <<< (7 * j) := by
  unfold shl64
  apply Nat.mod_eq_of_lt
  rw [Nat.shiftLeft_eq, ← pow128]
  have h1 : (128 : Nat) ^ j ≤ 128 ^ 8 := Nat.pow_le_pow_right (by decide) hj
  calc g * 128 ^ j ≤ 127 * 128 ^ 8 := Nat.mul_le_mul (by omega) h1
    _ < 2 ^ 64 := by norm_num

theorem shl64_top (g j : Nat) (hg : g < 128) (hj : j ≤ 9) (h9 : j = 9 → g ≤ 1) :
    shl64 g (7 * j) = g <<< (7 * j) := by
  by_cases h : j ≤ 8
  · exact shl64_group g j hg h
  · have hj9 : j = 9 := by omega
    have hg1 := h9 hj9
    subst hj9
    unfold shl64
    apply Nat.mod_eq_of_lt
    rw [Nat.shiftLeft_eq]
    calc g * 2 ^ (7 * 9) ≤ 1 * 2 ^ (7 * 9) := Nat.mul_le_mul_right _ hg1
      _ < 2 ^ 64 := by norm_num

/-- A run of continuation bytes followed by a terminator decodes to the
little-endian base-128 value of the run. -/
theorem scan_success (cs : List Nat) (b : Nat) (rest : List Nat) (j x : Nat)
    (hcs : ∀ y ∈ cs, 128 ≤ y) (hb : b < 128) (hlen : j + cs.length ≤ 9)
    (h9 : j + cs.length = 9 → b ≤ 1) (hx : x < 128 ^ j) :
    scan (cs ++ b :: rest) (j + 1) x (7 * j) =
      (x + 128 ^ j * valLE (cs ++ [b]), ((j + 1 + cs.length : Nat) : Int)) := by
  induction cs generalizing j x with
  | nil =>
    simp only [List.length_nil, Nat.add_zero] at hlen h9
    have h1 : ¬ (j + 1 > 10) := by omega
    have h2 : ¬ (j + 1 > 9 ∧ b > 1) := by omega
    simp only [List.nil_append, scan_cons, h1, if_false, hb, if_true, h2, List.length_nil,
      Nat.add_zero]
    rw [shl64_top b j hb hlen h9, or_shl_eq_add x b j hx]
    simp [valLE_cons, valLE_nil, Nat.mod_eq_of_lt hb]
  | cons y cs ih =>
    simp only [List.length_cons] at hlen h9
    have hy : 128 ≤ y := hcs y (List.mem_cons_self _ _)
    have h1 : ¬ (j + 1 > 10) := by omega
    have h2 : ¬ (y < 128) := by omega
    have hg : y % 128 < 128 := Nat.mod_lt y (by decide)
    have hx1 : x + 128 ^ j * (y % 128) < 128 ^ (j + 1) := by
      rw [pow_succ]
      have : 128 ^ j * (y % 128) ≤ 128 ^ j * 127 := Nat.mul_le_mul_left _ (by omega)
      omega
    simp only [List.cons_append, scan_cons, h1, if_false, h2]
    rw [and_7f, shl64_group (y % 128) j hg (by omega), or_shl_eq_add x _ j hx]
    have h7 : 7 * j + 7 = 7 * (j + 1) := by ring
    rw [h7, ih (j + 1) _ (fun z hz => hcs z (List.mem_cons_of_mem _ hz)) (by omega)
      (fun h => h9 (by omega)) hx1]
    simp only [List.length_cons, valLE_cons, pow_succ, Prod.mk.injEq]
    constructor
    · ring
    · push_cast; ring

/-- A successful scan has consumed a run of continuation bytes and one
terminator byte. -/
theorem scan_pos (l : List Nat) (c x s : Nat) (v : Nat) (n : Int)
    (h : scan l c x s = (v, n)) (hn : 0 < n) :
    ∃ cs b rest, l = cs ++ b :: rest ∧ (∀ y ∈ cs, 128 ≤ y) ∧ b < 128 ∧
      n = ((c + cs.length : Nat) : Int) ∧ c + cs.length ≤ 10 ∧
      (c + cs.length = 10 → b ≤ 1) := by
  induction l generalizing c x s with
  | nil =>
    simp only [scan_nil, Prod.mk.injEq] at h
    omega
  | cons y l ih =>
    rw [scan_cons] at h
    split at h
    · simp only [Prod.mk.injEq] at h; omega
    · split at h
      · split at h
        · simp only [Prod.mk.injEq] at h; omega
        · simp only [Prod.mk.injEq] at h
          refine ⟨[], y, l, rfl, by simp, by assumption, by simp [h.2], by simp; omega, ?_⟩
          intro h10
          simp only [List.length_nil, Nat.add_zero] at h10
          omega
      · obtain ⟨cs, b, rest, hl, hcs, hb, hn1, hle, h10⟩ := ih _ _ _ h
        refine ⟨y :: cs, b, rest, by simp [hl], ?_, hb, ?_, ?_, ?_⟩
        · intro z hz
          simp only [List.mem_cons] at hz
          rcases hz with hz | hz
          · subst hz; omega
          · exact hcs z hz
        · rw [hn1]; simp only [List.length_cons]; omega
        · simp only [List.length_cons]; omega
        · intro h; apply h10; simp only [List.length_cons] at h; omega

/-- Layout of a buffer that `Uvarint` decodes successfully. -/
theorem Uvarint_of_layout (pre : List Nat) (b : Nat) (tl : List Nat)
    (hb : b < 128) (htl : ∀ y ∈ tl, 128 ≤ y) (hlen : tl.length ≤ 9)
    (h9 : tl.length = 9 → b ≤ 1) :
    Uvarint (pre ++ b :: tl) = (valLE (tl.reverse ++ [b]), ((tl.length + 1 : Nat) : Int)) := by
  rw [Uvarint_eq_scan]
  have hrev : (pre ++ b :: tl).reverse = tl.reverse ++ b :: pre.reverse := by simp
  have := scan_success tl.reverse b pre.reverse 0 0 (by simpa using htl) hb (by simpa using hlen)
    (by simpa using h9) (by simp)
  rw [hrev, this]
  simp
  omega

theorem Uvarint_pos_layout (buf : List Nat) (v : Nat) (n : Int)
    (h : Uvarint buf = (v, n)) (hn : 0 < n) :
    ∃ pre b tl, buf = pre ++ b :: tl ∧ b < 128 ∧ (∀ y ∈ tl, 128 ≤ y) ∧ tl.length ≤ 9 ∧
      (tl.length = 9 → b ≤ 1) ∧ n = ((tl.length + 1 : Nat) : Int) ∧
      v = valLE (tl.reverse ++ [b]) := by
  rw [Uvarint_eq_scan] at h
  obtain ⟨cs, b, rest, hl, hcs, hb, hn1, hle, h10⟩ := scan_pos _ _ _ _ _ _ h hn
  have hbuf : buf = rest.reverse ++ b :: cs.reverse := by
    have := congrArg List.reverse hl
    simpa using this
  have hlay := Uvarint_of_layout rest.reverse b cs.reverse hb (by simpa using hcs)
    (by simp; omega) (by simp; omega)
  rw [← hbuf, Uvarint_eq_scan, h] at hlay
  simp only [List.reverse_reverse, List.length_reverse, Prod.mk.injEq] at hlay
  refine ⟨rest.reverse, b, cs.reverse, hbuf, hb, by simpa using hcs, by simp; omega,
    by simp; omega, ?_, ?_⟩
  · rw [hn1]; simp; omega
  · simpa using hlay.1
/-! ## Round trips -/

theorem valLE_contLE (n x : Nat) : valLE (contLE n x) = x % 128 ^ n := by
  induction n generalizing x with
  | zero => simp [contLE, valLE_nil, Nat.mod_one]
  | succ n ih =>
    rw [contLE, valLE_cons, ih, pow_succ', Nat.mod_mul]
    omega

theorem valLE_encoding (x : Nat) :
    valLE (contLE (encN x) x ++ [x / 128 ^ encN x]) = x % 128 ^ encN x +
      128 ^ encN x * (x / 128 ^ encN x % 128) := by
  rw [valLE_append, valLE_contLE, contLE_length, valLE_cons, valLE_nil]
  simp

theorem top_le_one (x : Nat) (hx : x < 2 ^ 64) (h9 : encN x = 9) : x / 128 ^ encN x ≤ 1 := by
  rw [h9]
  have : x / 128 ^ 9 < 2 := by
    rw [Nat.div_lt_iff_lt_mul (by norm_num)]
    calc x < 2 ^ 64 := hx
      _ = 2 * 128 ^ 9 := by norm_num
  omega

/-- Decoding what `AppendUvarint` has appended gives back the value and the
number of appended bytes. -/
theorem decode_encode_eq (p : List Nat) (x : Nat) (hx : x < 2 ^ 64) :
    Uvarint (AppendUvarint p x) = (x, ((encN x + 1 : Nat) : Int)) := by
  rw [AppendUvarint_eq p x hx,
    Uvarint_of_layout p _ _ (top_lt x hx) (by simpa using contLE_ge (encN x) x)
      (by simpa [contLE_length] using encN_le x)
      (by simpa [contLE_length] using top_le_one x hx)]
  rw [List.reverse_reverse, valLE_encoding, Nat.mod_eq_of_lt (top_lt x hx), Nat.mod_add_div]
  simp [contLE_length]

theorem zig_eq (x : Int) (hx : IsInt64 x) :
    ((zig x : Nat) : Int) = if x < 0 then -2 * x - 1 else 2 * x := by
  obtain ⟨h1, h2⟩ := hx
  unfold zig shl64 uint64 not64
  simp only [Nat.shiftLeft_eq]
  split <;> omega

theorem zig_lt (x : Int) (hx : IsInt64 x) : zig x < 2 ^ 64 := by
  have h := zig_eq x hx
  obtain ⟨h1, h2⟩ := hx
  split at h <;> omega

theorem zag_zig (x : Int) (hx : IsInt64 x) : zag (zig x) = x := by
  have h := zig_eq x hx
  obtain ⟨h1, h2⟩ := hx
  unfold zag int64 notInt64
  simp only [Nat.shiftRight_eq_div_pow, Nat.and_one_is_mod, pow_one]
  split at h <;> split_ifs <;> omega

theorem AppendVarint_eq (p : List Nat) (x : Int) : AppendVarint p x = AppendUvarint p (zig x) :=
  rfl

theorem Varint_eq (buf : List Nat) : Varint buf = (zag (Uvarint buf).1, (Uvarint buf).2) := rfl

theorem readBack_AppendUvarint (k : Nat) (q : List Nat) (x : Nat) (hx : x < 2 ^ 64) :
    readBack (k + 1) (AppendUvarint q x) =
      (readBack k q).map (fun r => (x :: r.1, r.2)) := by
  have hlen := AppendUvarint_length q x hx
  have htr : (AppendUvarint q x).take
      (((AppendUvarint q x).length : Int) - ((encN x + 1 : Nat) : Int)).toNat = q := by
    have : (((AppendUvarint q x).length : Int) - ((encN x + 1 : Nat) : Int)).toNat = q.length := by
      rw [hlen]; omega
    rw [this, AppendUvarint_eq q x hx, List.take_left]
  rw [readBack]
  simp only [decode_encode_eq q x hx, htr]
  have hpos : ¬ (((encN x + 1 : Nat) : Int) ≤ 0) := by omega
  rw [if_neg hpos]
  cases readBack k q <;> rfl

theorem readBack_foldl (p : List Nat) (vs : List Nat) (hvs : ∀ v ∈ vs, v < 2 ^ 64) :
    readBack vs.length (appendAll p vs) = some (vs.reverse, p) := by
  induction vs using List.reverseRecOn with
  | nil => rfl
  | append_singleton vs v ih =>
    have hv : v < 2 ^ 64 := hvs v (by simp)
    have ih1 := ih (fun w hw => hvs w (by simp [hw]))
    have e : appendAll p (vs ++ [v]) = AppendUvarint (appendAll p vs) v := by
      simp [appendAll, List.foldl_append]
    rw [e, List.length_append, List.length_singleton, readBack_AppendUvarint _ _ _ hv, ih1]
    simp
/-! ## Length of the encoding -/

theorem bitlength_eq (x : Nat) (hx : x < 2 ^ 64) (h0 : x ≠ 0) : bitlength x = bitLen 64 x := by
  unfold bitlength
  apply le_antisymm
  · have h1 : x < 2 ^ bitLen 64 x := (bitLen_le_iff 64 x _ hx).1 (le_refl _)
    have := (Nat.log2_lt h0).2 h1
    omega
  · rw [bitLen_le_iff 64 x _ hx]
    exact Nat.lt_log2_self

theorem encN_eq_bitlength (x : Nat) (hx : x < 2 ^ 64) : encN x = (bitlength x - 1) / 7 := by
  by_cases h0 : x = 0
  · subst h0
    have h1 : encN 0 = 0 := by decide
    have h2 : Nat.log2 0 = 0 := by unfold Nat.log2; simp
    rw [h1, bitlength, h2]
  · rw [bitlength_eq x hx h0, encN_eq_div]

theorem contLE_eq_map (n x : Nat) :
    contLE n x = (List.range n).map (fun k => ((x >>> (7 * k)) &&& 0x7f) ||| 0x80) := by
  induction n with
  | zero => rfl
  | succ n ih =>
    rw [contLE_succ_right, ih, List.range_succ, List.map_append, List.map_singleton, and_7f,
      or_80_of_lt _ (Nat.mod_lt _ (by decide)), Nat.shiftRight_eq_div_pow, ← pow128]

theorem top_eq (x : Nat) (hx : x < 2 ^ 64) :
    (x >>> (7 * encN x)) &&& 0x7f = x / 128 ^ encN x := by
  rw [and_7f, Nat.shiftRight_eq_div_pow, ← pow128, Nat.mod_eq_of_lt (top_lt x hx)]

/-! ## The bounded encoder -/

theorem store_eq (buf : List Nat) (i v : Nat) (hi : i < buf.length) :
    store buf (i : Int) v = some (buf.take i ++ v :: buf.drop (i + 1)) := by
  unfold store
  have h : 0 ≤ (i : Int) ∧ (i : Int) < (buf.length : Int) := by omega
  rw [if_pos h, Int.toNat_ofNat, List.set_eq_take_cons_drop v hi]

theorem store_none (buf : List Nat) (i v : Nat) (hi : buf.length ≤ i) :
    store buf (i : Int) v = none := by
  unfold store
  have h : ¬ (0 ≤ (i : Int) ∧ (i : Int) < (buf.length : Int)) := by omega
  rw [if_neg h]

theorem PutUvarintLoop_small (f : Nat) (buf : List Nat) (x : Nat) (i : Int) (hx : x < 128) :
    PutUvarintLoop (f + 1) buf x i = Outcome.ret (buf, x, i) := by
  have hx1 : ¬ (x ≥ 128) := by omega
  rw [PutUvarintLoop, if_neg hx1]

theorem PutUvarintLoop_fault (f : Nat) (buf : List Nat) (x i : Nat) (hx : 128 ≤ x)
    (hi : buf.length ≤ i) : PutUvarintLoop (f + 1) buf x (i : Int) = Outcome.fault buf := by
  rw [PutUvarintLoop, if_pos hx, store_none buf i _ hi]

theorem PutUvarintLoop_eq (m : Nat) (fuel : Nat) (buf : List Nat) (x : Nat)
    (hf : m < fuel) (hlen : m < buf.length) (hx : x < 128 ^ (m + 1))
    (hm : m ≠ 0 → 128 ^ m ≤ x) :
    PutUvarintLoop fuel buf x (m : Int) =
      Outcome.ret (buf.take 1 ++ (contLE m x).reverse ++ buf.drop (m + 1), x / 128 ^ m, 0) := by
  induction m generalizing fuel buf x with
  | zero =>
    obtain ⟨f, rfl⟩ : ∃ f, fuel = f + 1 := ⟨fuel - 1, by omega⟩
    have hx1 : ¬ (x ≥ 128) := by simpa using hx
    rw [PutUvarintLoop, if_neg hx1]
    simp only [contLE, List.reverse_nil, List.append_nil, pow_zero, Nat.div_one, Nat.cast_zero,
      zero_add, List.take_append_drop]
  | succ m ih =>
    obtain ⟨f, rfl⟩ : ∃ f, fuel = f + 1 := ⟨fuel - 1, by omega⟩
    have hp : (128 : Nat) ^ (m + 1) ≤ x := hm (by omega)
    have hx1 : x ≥ 128 := by
      have : (128 : Nat) ^ 1 ≤ 128 ^ (m + 1) := Nat.pow_le_pow_right (by decide) (by omega)
      omega
    have hdiv : x / 128 < 128 ^ (m + 1) := by
      rw [Nat.div_lt_iff_lt_mul (by decide), ← pow_succ]; exact hx
    have hdiv2 : m ≠ 0 → 128 ^ m ≤ x / 128 := by
      intro _
      rw [Nat.le_div_iff_mul_le (by decide), ← pow_succ]; exact hp
    have hcast : ((m + 1 : Nat) : Int) - 1 = (m : Int) := by omega
    have hlen2 : m < (buf.take (m + 1) ++ (x % 128 + 128) :: buf.drop (m + 1 + 1)).length := by
      simp; omega
    rw [PutUvarintLoop, if_pos hx1, store_eq buf (m + 1) _ hlen]
    simp only [byte_or_80, hcast, Nat.shiftRight_eq_div_pow]
    rw [show (2 : Nat) ^ 7 = 128 by norm_num, ih f _ (x / 128) (by omega) hlen2 hdiv hdiv2]
    have ht : (buf.take (m + 1) ++ (x % 128 + 128) :: buf.drop (m + 1 + 1)).take 1 = buf.take 1 := by
      rw [List.take_append_of_le_length (by simp; omega), List.take_take]
      simp
    have hd : (buf.take (m + 1) ++ (x % 128 + 128) :: buf.drop (m + 1 + 1)).drop (m + 1) =
        (x % 128 + 128) :: buf.drop (m + 1 + 1) := by
      rw [List.drop_left' (by simp; omega)]
    rw [ht, hd, contLE, Nat.div_div_eq_div_mul, ← pow_succ']
    simp

/-- With room for the encoding, `PutUvarint` writes it at the front of the
buffer and returns its length. -/
theorem PutUvarint_eq (buf : List Nat) (x : Nat) (hx : x < 2 ^ 64) (hlen : encN x < buf.length) :
    PutUvarint buf x =
      Outcome.ret ((x / 128 ^ encN x) :: (contLE (encN x) x).reverse ++ buf.drop (encN x + 1),
        ((encN x : Nat) : Int) + 1) := by
  have hn := encN_le x
  have hloop := PutUvarintLoop_eq (encN x) 64 buf x (by omega) hlen (lt_pow_encN x hx)
    (pow_encN_le x hx)
  have hb : byte (x / 128 ^ encN x) = x / 128 ^ encN x := by
    have := top_lt x hx
    generalize x / 128 ^ encN x = t at this ⊢
    unfold byte; omega
  have hpos : 0 < (buf.take 1 ++ (contLE (encN x) x).reverse ++ buf.drop (encN x + 1)).length := by
    simp; omega
  have hst := store_eq (buf.take 1 ++ (contLE (encN x) x).reverse ++ buf.drop (encN x + 1)) 0
    (x / 128 ^ encN x) hpos
  have h1 : (buf.take 1 ++ (contLE (encN x) x).reverse ++ buf.drop (encN x + 1)).drop (0 + 1) =
      (contLE (encN x) x).reverse ++ buf.drop (encN x + 1) := by
    rw [List.append_assoc, List.drop_left' (by simp; omega)]
  rw [h1] at hst
  simp only [PutUvarint, encN_eq, hloop, hb]
  simp only [Nat.cast_zero] at hst
  rw [hst]
  simp

/-- Without room for the encoding, `PutUvarint` panics on its first store. -/
theorem PutUvarint_fault (buf : List Nat) (x : Nat) (hx : x < 2 ^ 64)
    (hlen : buf.length ≤ encN x) : PutUvarint buf x = Outcome.fault buf := by
  by_cases h0 : encN x = 0
  · have hx1 : x < 128 := by
      have := lt_pow_encN x hx
      rw [h0] at this
      simpa using this
    have hnil : buf = [] := by
      apply List.eq_nil_of_length_eq_zero; omega
    subst hnil
    have hs : store [] 0 (byte x) = none := store_none [] 0 _ (by simp)
    simp only [PutUvarint, encN_eq, h0, PutUvarintLoop_small 63 [] x _ hx1, Nat.cast_zero, hs]
  · have hp := pow_encN_le x hx h0
    have hx1 : x ≥ 128 := by
      have : (128 : Nat) ^ 1 ≤ 128 ^ encN x := Nat.pow_le_pow_right (by decide) (by omega)
      omega
    simp only [PutUvarint, encN_eq, PutUvarintLoop_fault 63 buf x (encN x) hx1 hlen]
/-! ## Canonical encodings and failing scans -/

theorem contLE_valLE (l : List Nat) (t : Nat) (hl : ∀ y ∈ l, 128 ≤ y ∧ y < 256) :
    contLE l.length (valLE l + 128 ^ l.length * t) = l := by
  induction l with
  | nil => rfl
  | cons y l ih =>
    have hy := hl y (List.mem_cons_self _ _)
    have e1 : (valLE (y :: l) + 128 ^ (l.length + 1) * t) % 128 + 128 = y := by
      rw [valLE_cons, pow_succ', Nat.mul_assoc]
      generalize 128 ^ l.length * t = w
      omega
    have e2 : (valLE (y :: l) + 128 ^ (l.length + 1) * t) / 128 =
        valLE l + 128 ^ l.length * t := by
      rw [valLE_cons, pow_succ', Nat.mul_assoc]
      generalize 128 ^ l.length * t = w
      omega
    rw [List.length_cons, contLE, e1, e2, ih (fun z hz => hl z (List.mem_cons_of_mem _ hz))]

theorem valLE_layout_lt (b : Nat) (tl : List Nat) (hb : b < 128) (hlen : tl.length ≤ 9)
    (h9 : tl.length = 9 → b ≤ 1) : valLE (tl.reverse ++ [b]) < 2 ^ 64 := by
  by_cases h : tl.length ≤ 8
  · have h1 := valLE_lt (tl.reverse ++ [b])
    have h2 : (128 : Nat) ^ (tl.reverse ++ [b]).length ≤ 128 ^ 9 :=
      Nat.pow_le_pow_right (by decide) (by simp; omega)
    have h3 : (128 : Nat) ^ 9 < 2 ^ 64 := by norm_num
    omega
  · have hl : tl.length = 9 := by omega
    have hb1 := h9 hl
    have h1 := valLE_lt tl.reverse
    rw [valLE_append, valLE_cons, valLE_nil, List.length_reverse, hl] at *
    have h2 : (128 : Nat) ^ 9 * (b % 128 + 128 * 0) ≤ 128 ^ 9 * 1 :=
      Nat.mul_le_mul_left _ (by omega)
    have h3 : (128 : Nat) ^ 9 + 128 ^ 9 * 1 = 2 ^ 64 := by norm_num
    omega

/-- Re-encoding the value of a consumed region that is one byte long or starts
with a non-zero byte gives the region back. -/
theorem AppendUvarint_valLE (b : Nat) (tl : List Nat) (hb : b < 128)
    (htl : ∀ y ∈ tl, 128 ≤ y ∧ y < 256) (hlen : tl.length ≤ 9) (h9 : tl.length = 9 → b ≤ 1)
    (hc : tl = [] ∨ b ≠ 0) :
    AppendUvarint [] (valLE (tl.reverse ++ [b])) = b :: tl := by
  have hv := valLE_layout_lt b tl hb hlen h9
  have hval : valLE (tl.reverse ++ [b]) = valLE tl.reverse + 128 ^ tl.reverse.length * b := by
    rw [valLE_append, valLE_cons, valLE_nil, Nat.mod_eq_of_lt hb]; simp
  have hlt := valLE_lt (tl.reverse ++ [b])
  have hlow := valLE_lt tl.reverse
  simp only [List.length_append, List.length_reverse, List.length_singleton] at hlt hlow
  have hle : encN (valLE (tl.reverse ++ [b])) ≤ tl.length := encN_le_of_lt _ _ hv hlt
  have hge : tl.length ≤ encN (valLE (tl.reverse ++ [b])) := by
    rcases hc with h | h
    · simp [h]
    · by_contra hcon
      have h1 := lt_pow_encN _ hv
      have h2 : (128 : Nat) ^ (encN (valLE (tl.reverse ++ [b])) + 1) ≤ 128 ^ tl.length :=
        Nat.pow_le_pow_right (by decide) (by omega)
      have h3 : 128 ^ tl.length * 1 ≤ 128 ^ tl.length * b :=
        Nat.mul_le_mul_left _ (by omega)
      rw [hval, List.length_reverse] at h1 h2
      omega
  have hn : encN (valLE (tl.reverse ++ [b])) = tl.length := le_antisymm hle hge
  have htop : valLE (tl.reverse ++ [b]) / 128 ^ tl.length = b := by
    rw [hval, List.length_reverse, Nat.add_mul_div_left _ _ (by positivity),
      Nat.div_eq_of_lt hlow, Nat.zero_add]
  have hcont : contLE tl.length (valLE (tl.reverse ++ [b])) = tl.reverse := by
    have := contLE_valLE tl.reverse b (by simpa using htl)
    rw [List.length_reverse] at this
    rw [hval, List.length_reverse, this]
  rw [AppendUvarint_eq [] _ hv, hn, htop, hcont]
  simp

theorem scan_all_cont (l : List Nat) (c x s : Nat) (hl : ∀ y ∈ l, 128 ≤ y)
    (hlen : c + l.length ≤ 11) : scan l c x s = (0, 0) := by
  induction l generalizing c x s with
  | nil => rfl
  | cons y l ih =>
    have hy := hl y (List.mem_cons_self _ _)
    simp only [List.length_cons] at hlen
    have h1 : ¬ (c > 10) := by omega
    have h2 : ¬ (y < 128) := by omega
    rw [scan_cons, if_neg h1, if_neg h2]
    exact ih _ _ _ (fun z hz => hl z (List.mem_cons_of_mem _ hz)) (by omega)
/-! ## Overflow and classification of the decoder's results -/

theorem scan_overflow_len (cs : List Nat) (y : Nat) (rest : List Nat) (c x s : Nat)
    (hcs : ∀ z ∈ cs, 128 ≤ z) (hc : c + cs.length = 11) :
    scan (cs ++ y :: rest) c x s = (0, -11) := by
  induction cs generalizing c x s with
  | nil =>
    simp only [List.length_nil, Nat.add_zero] at hc
    subst hc
    rw [List.nil_append, scan_cons, if_pos (by decide)]
    rfl
  | cons z cs ih =>
    have hz := hcs z (List.mem_cons_self _ _)
    simp only [List.length_cons] at hc
    have h1 : ¬ (c > 10) := by omega
    have h2 : ¬ (z < 128) := by omega
    rw [List.cons_append, scan_cons, if_neg h1, if_neg h2]
    exact ih _ _ _ (fun w hw => hcs w (List.mem_cons_of_mem _ hw)) (by omega)

theorem scan_overflow_tenth (cs : List Nat) (b : Nat) (rest : List Nat) (c x s : Nat)
    (hcs : ∀ z ∈ cs, 128 ≤ z) (hb : b < 128) (hb1 : 1 < b) (hc : c + cs.length = 10) :
    scan (cs ++ b :: rest) c x s = (0, -10) := by
  induction cs generalizing c x s with
  | nil =>
    simp only [List.length_nil, Nat.add_zero] at hc
    subst hc
    have h3 : (10 > 9 ∧ b > 1) := ⟨by decide, hb1⟩
    rw [List.nil_append, scan_cons, if_neg (by decide), if_pos hb, if_pos h3]
    rfl
  | cons z cs ih =>
    have hz := hcs z (List.mem_cons_self _ _)
    simp only [List.length_cons] at hc
    have h1 : ¬ (c > 10) := by omega
    have h2 : ¬ (z < 128) := by omega
    rw [List.cons_append, scan_cons, if_neg h1, if_neg h2]
    exact ih _ _ _ (fun w hw => hcs w (List.mem_cons_of_mem _ hw)) (by omega)

/-- A scan either succeeds with a positive count or fails with value `0` and
one of the counts `0`, `-10`, `-11`. -/
theorem scan_class (l : List Nat) (c x s : Nat) (hc1 : 1 ≤ c) (hc : c ≤ 11) :
    0 < (scan l c x s).2 ∨
      ((scan l c x s).1 = 0 ∧
        ((scan l c x s).2 = 0 ∨ (scan l c x s).2 = -10 ∨ (scan l c x s).2 = -11)) := by
  induction l generalizing c x s with
  | nil => right; simp [scan_nil]
  | cons y l ih =>
    rw [scan_cons]
    by_cases h1 : c > 10
    · have : c = 11 := by omega
      subst this
      right; simp
    · rw [if_neg h1]
      by_cases h2 : y < 128
      · rw [if_pos h2]
        by_cases h3 : c > 9 ∧ y > 1
        · have : c = 10 := by omega
          subst this
          rw [if_pos h3]
          right; simp
        · rw [if_neg h3]
          left; simp only; omega
      · rw [if_neg h2]
        exact ih _ _ _ (by omega) (by omega)

theorem zag_zero : zag 0 = 0 := by decide

/-- The value returned by `Uvarint` always fits in 64 bits. -/
theorem Uvarint_lt (buf : List Nat) : (Uvarint buf).1 < 2 ^ 64 := by
  rcases scan_class buf.reverse 1 0 0 (le_refl _) (by decide) with h | h
  · rw [← Uvarint_eq_scan] at h
    obtain ⟨pre, b, tl, _, hb, _, hlen, h9, _, hv⟩ :=
      Uvarint_pos_layout buf (Uvarint buf).1 (Uvarint buf).2 rfl h
    rw [hv]
    exact valLE_layout_lt b tl hb hlen h9
  · rw [← Uvarint_eq_scan] at h
    rw [h.1]; norm_num

theorem valLE_eq_sum (l : List Nat) :
    valLE l = ((List.range l.length).map (fun k => l.getD k 0 % 128 * 128 ^ k)).sum := by
  induction l with
  | nil => rfl
  | cons b l ih =>
    rw [valLE_cons, List.length_cons, List.range_succ_eq_map, List.map_cons, List.sum_cons,
      List.map_map, ih, ← List.sum_map_mul_left]
    simp only [List.getD_cons_zero, pow_zero, Nat.mul_one]
    congr 2
    apply List.map_congr_left
    intro k _
    simp only [Function.comp, Nat.succ_eq_add_one, List.getD_cons_succ, pow_succ]
    ring

theorem getD_reverse_tail (pre : List Nat) (b : Nat) (tl : List Nat) (k : Nat)
    (hk : k < tl.length + 1) :
    (tl.reverse ++ [b]).getD k 0 = byteFromTail (pre ++ b :: tl) k := by
  unfold byteFromTail
  have h1 : (tl.reverse ++ [b]) = (b :: tl).reverse := by simp
  have hlen : k < (b :: tl).reverse.length := by simpa using hk
  have hlen2 : (b :: tl).length - 1 - k < (b :: tl).length := by simp; omega
  rw [h1, List.getD_eq_getElem _ _ hlen, List.getElem_reverse,
    List.getD_append_right _ _ _ _ (by simp; omega),
    List.getD_eq_getElem _ _ (by simp; omega)]
  congr 1
  simp only [List.length_append, List.length_cons]
  omega

theorem split_tail (buf : List Nat) (m : Nat) (hm : m < buf.length) :
    buf = buf.take (buf.length - (m + 1)) ++ byteFromTail buf m :: lastBytes buf m := by
  have hj : buf.length - (m + 1) < buf.length := by omega
  have h1 : byteFromTail buf m = buf[buf.length - (m + 1)] := by
    unfold byteFromTail
    rw [show buf.length - 1 - m = buf.length - (m + 1) by omega, List.getD_eq_getElem _ _ hj]
  have h2 : lastBytes buf m = buf.drop (buf.length - (m + 1) + 1) := by
    unfold lastBytes
    rw [show buf.length - m = buf.length - (m + 1) + 1 by omega]
  rw [h1, h2, List.getElem_cons_drop, List.take_append_drop]

theorem lastBytes_length (buf : List Nat) (m : Nat) (hm : m ≤ buf.length) :
    (lastBytes buf m).length = m := by
  unfold lastBytes
  rw [List.length_drop]; omega

theorem ge_of_testBit (b : Nat) (h : Nat.testBit b 7 = true) : 128 ≤ b := by
  simpa using Nat.testBit_implies_ge h

theorem lt_of_testBit (b : Nat) (hb : b < 256) (h : Nat.testBit b 7 = false) : b < 128 := by
  rw [Nat.testBit_to_div_mod] at h
  simp only [Nat.reducePow, decide_eq_false_iff_not] at h
  omega

theorem Uvarint_split (buf : List Nat) (m : Nat) (hm : m < buf.length) :
    Uvarint buf = scan ((lastBytes buf m).reverse ++
      byteFromTail buf m :: (buf.take (buf.length - (m + 1))).reverse) 1 0 0 := by
  have h := congrArg List.reverse (split_tail buf m hm)
  rw [List.reverse_append, List.reverse_cons, List.append_assoc, List.singleton_append] at h
  rw [Uvarint_eq_scan, ← h]
/-! ## Zig-zag mapping -/

theorem zigzagSpec_eq (x : Int) :
    ((zigzagSpec x : Nat) : Int) = if x < 0 then -2 * x - 1 else 2 * x := by
  unfold zigzagSpec
  by_cases h : 0 ≤ x
  · rw [if_pos h, if_neg (by omega)]; omega
  · have hneg : x < 0 := by omega
    rw [if_neg h, if_pos hneg, abs_of_neg hneg]; omega

theorem zig_eq_zigzagSpec (x : Int) (hx : IsInt64 x) : zig x = zigzagSpec x := by
  have h1 := zig_eq x hx
  have h2 := zigzagSpec_eq x
  omega

theorem unzigzagSpec_eq (u : Nat) :
    unzigzagSpec u = if u % 2 = 1 then -((u / 2 : Nat) : Int) - 1 else ((u / 2 : Nat) : Int) := by
  unfold unzigzagSpec
  simp only [Nat.shiftRight_eq_div_pow, Nat.and_one_is_mod, pow_one]
  split_ifs <;> omega

theorem zag_eq_unzigzagSpec (u : Nat) (hu : u < 2 ^ 64) : zag u = unzigzagSpec u := by
  rw [unzigzagSpec_eq]
  unfold zag int64 notInt64
  simp only [Nat.shiftRight_eq_div_pow, Nat.and_one_is_mod, pow_one]
  split_ifs <;> omega

theorem PutVarint_eq (buf : List Nat) (x : Int) : PutVarint buf x = PutUvarint buf (zig x) := rfl

theorem zigzagSpec_unzigzagSpec (u : Nat) : zigzagSpec (unzigzagSpec u) = u := by
  have h1 := zigzagSpec_eq (unzigzagSpec u)
  rw [unzigzagSpec_eq] at h1 ⊢
  split_ifs at h1 ⊢ <;> omega

theorem zigzagSpec_inj (x y : Int) (h : zigzagSpec x = zigzagSpec y) : x = y := by
  have h1 := zigzagSpec_eq x
  have h2 := zigzagSpec_eq y
  rw [h] at h1
  split_ifs at h1 h2 <;> omega

theorem unzigzagSpec_range (u : Nat) (hu : u < 2 ^ 64) : IsInt64 (unzigzagSpec u) := by
  rw [unzigzagSpec_eq]
  unfold IsInt64
  split_ifs <;> omega

/-! ## Frame, minimality and signed length -/

theorem lastBytes_layout (pre : List Nat) (b : Nat) (tl : List Nat) :
    lastBytes (pre ++ b :: tl) (tl.length + 1) = b :: tl := by
  unfold lastBytes
  rw [List.drop_left' (by simp)]

theorem encN_succ_le_iff (u j : Nat) (hu : u < 2 ^ 64) :
    encN u + 1 ≤ j + 1 ↔ u < 128 ^ (j + 1) := by
  constructor
  · intro h
    have h1 := lt_pow_encN u hu
    have h2 : (128 : Nat) ^ (encN u + 1) ≤ 128 ^ (j + 1) := Nat.pow_le_pow_right (by decide) h
    omega
  · intro h
    have := encN_le_of_lt u j hu h
    omega

theorem AppendVarint_length (p : List Nat) (x : Int) (hx : IsInt64 x) :
    (AppendVarint p x).length = p.length + (encN (zig x) + 1) := by
  rw [AppendVarint_eq, AppendUvarint_length p _ (zig_lt x hx)]

/-- The signed encoding has at most `j + 1` bytes exactly when `x` lies in
`[-2 ^ (7 j + 6), 2 ^ (7 j + 6))`. -/
theorem AppendVarint_length_le_iff (p : List Nat) (x : Int) (hx : IsInt64 x) (j : Nat) :
    (AppendVarint p x).length ≤ p.length + (j + 1) ↔
      -(2 ^ (7 * j + 6) : Int) ≤ x ∧ x < 2 ^ (7 * j + 6) := by
  rw [AppendVarint_length p x hx, Nat.add_le_add_iff_left, encN_succ_le_iff _ _ (zig_lt x hx)]
  have hz := zig_eq x hx
  have hp : ((128 ^ (j + 1) : Nat) : Int) = 2 * (2 : Int) ^ (7 * j + 6) := by
    rw [pow128]; push_cast
    rw [show 7 * (j + 1) = (7 * j + 6) + 1 by ring, pow_succ]; ring
  have hlt : zig x < 128 ^ (j + 1) ↔ ((zig x : Nat) : Int) < ((128 ^ (j + 1) : Nat) : Int) := by
    exact Int.ofNat_lt.symm
  rw [hlt, hp, hz]
  generalize (2 : Int) ^ (7 * j + 6) = P
  split_ifs <;> omega
/-! ## Verified claims -/

/-- C1. Unsigned round trip: for every buffer `p` (empty or not) and every
`uint64` `x`, `Uvarint (AppendUvarint p x)` returns `(x, k)` where
`k = len (AppendUvarint p x) - len p` and `k > 0`; with `p` empty the decode
consumes the whole encoding. -/
theorem Uvarint_AppendUvarint (p : List Nat) (x : Nat) (hx : IsUint64 x) :
    Uvarint (AppendUvarint p x) =
        (x, ((AppendUvarint p x).length : Int) - (p.length : Int)) ∧
      0 < ((AppendUvarint p x).length : Int) - (p.length : Int) ∧
      Uvarint (AppendUvarint [] x) = (x, ((AppendUvarint [] x).length : Int)) := by
  have h1 := AppendUvarint_length p x hx
  have h2 := AppendUvarint_length [] x hx
  rw [decode_encode_eq p x hx, decode_encode_eq [] x hx, h1, h2]
  refine ⟨?_, by omega, ?_⟩
  · congr 1; omega
  · congr 1; simp only [List.length_nil]; omega

/-- Instance of C1 at the prefix `"pr"` and the value `300`. -/
theorem Uvarint_AppendUvarint_witness :
    Uvarint (AppendUvarint [112, 114] 300) =
        (300, ((AppendUvarint [112, 114] 300).length : Int) - (([112, 114] : List Nat).length : Int)) ∧
      0 < ((AppendUvarint [112, 114] 300).length : Int) - (([112, 114] : List Nat).length : Int) ∧
      Uvarint (AppendUvarint [] 300) = (300, ((AppendUvarint [] 300).length : Int)) :=
  Uvarint_AppendUvarint [112, 114] 300 (by decide)

/-- C2. Signed round trip: for every buffer `p` and every `int64` `x`
(`MinInt64`, `MaxInt64`, `0` and `-1` included), `Varint (AppendVarint p x)`
returns `(x, k)` where `k = len (AppendVarint p x) - len p` and `k > 0`. -/
theorem Varint_AppendVarint (p : List Nat) (x : Int) (hx : IsInt64 x) :
    Varint (AppendVarint p x) =
        (x, ((AppendVarint p x).length : Int) - (p.length : Int)) ∧
      0 < ((AppendVarint p x).length : Int) - (p.length : Int) := by
  have hz := zig_lt x hx
  have h1 := AppendUvarint_length p (zig x) hz
  rw [Varint_eq, AppendVarint_eq, decode_encode_eq p (zig x) hz, h1]
  refine ⟨?_, by omega⟩
  simp only [zag_zig x hx, Prod.mk.injEq, true_and]
  omega

/-- Instance of C2 at `MinInt64`. -/
theorem Varint_AppendVarint_witness :
    Varint (AppendVarint [112] (-(2 ^ 63))) =
        (-(2 ^ 63), ((AppendVarint [112] (-(2 ^ 63))).length : Int) - (([112] : List Nat).length : Int)) ∧
      0 < ((AppendVarint [112] (-(2 ^ 63))).length : Int) - (([112] : List Nat).length : Int) :=
  Varint_AppendVarint [112] (-(2 ^ 63)) (by decide)

/-- C3. Sequential append/consume: for every buffer `p` and every list `vs` of
`uint64` values, appending all of `vs` to `p` in order with `AppendUvarint` and
then, `len vs` times, calling `Uvarint` and truncating by the returned count
returns a positive count every time (the loop never stops early), yields the
values of `vs` in reverse order, and leaves a buffer equal to `p`. -/
theorem readBack_appendAll_reverse (p : List Nat) (vs : List Nat)
    (hvs : ∀ v ∈ vs, IsUint64 v) :
    readBack vs.length (appendAll p vs) = some (vs.reverse, p) :=
  readBack_foldl p vs hvs

/-- Instance of C3 at the prefix and the values of `ExampleAppendUvarint`. -/
theorem readBack_appendAll_reverse_witness :
    readBack ([1, 2, 127, 128, 255, 256] : List Nat).length
        (appendAll [112, 114, 101, 102, 105, 120] [1, 2, 127, 128, 255, 256]) =
      some (([1, 2, 127, 128, 255, 256] : List Nat).reverse, [112, 114, 101, 102, 105, 120]) :=
  readBack_appendAll_reverse [112, 114, 101, 102, 105, 120] [1, 2, 127, 128, 255, 256]
    (by decide)

/-- C4 as stated fails: `[0x00, 0x80]` decodes successfully to `(0, 2)`, but
re-encoding `0` gives the single byte `[0x00]`, not the two consumed bytes. -/
theorem Uvarint_canonical_counterexample :
    IsBuf [0x00, 0x80] ∧ Uvarint [0x00, 0x80] = (0, 2) ∧
      AppendUvarint [] 0 ≠
        ([0x00, 0x80] : List Nat).drop (([0x00, 0x80] : List Nat).length - (2 : Int).toNat) := by
  decide

/-- C4, amended. Canonical decoding: for every buffer `buf` on which
`Uvarint` succeeds, returning `(v, n)` with `n > 0`, and whose consumed region
is a single byte or begins with a non-zero byte, re-encoding `v` with
`AppendUvarint` onto the empty buffer yields exactly the last `n` bytes of
`buf`, byte for byte. -/
theorem Uvarint_canonical (buf : List Nat) (hbuf : IsBuf buf) (v : Nat) (n : Int)
    (h : Uvarint buf = (v, n)) (hn : 0 < n)
    (hc : n = 1 ∨ buf.getD (buf.length - n.toNat) 0 ≠ 0) :
    AppendUvarint [] v = buf.drop (buf.length - n.toNat) := by
  obtain ⟨pre, b, tl, hl, hb, htl, hlen, h9, hn1, hv⟩ := Uvarint_pos_layout buf v n h hn
  have hidx : buf.length - n.toNat = pre.length := by
    rw [hl, hn1]; simp
  have htl2 : ∀ y ∈ tl, 128 ≤ y ∧ y < 256 := fun y hy =>
    ⟨htl y hy, hbuf y (by rw [hl]; simp [hy])⟩
  have hc2 : tl = [] ∨ b ≠ 0 := by
    rcases hc with h1 | h1
    · left
      apply List.eq_nil_of_length_eq_zero
      omega
    · right
      rw [hidx, hl, List.getD_append_right _ _ _ _ (le_refl _)] at h1
      simpa using h1
  rw [hidx, hv, AppendUvarint_valLE b tl hb htl2 hlen h9 hc2, hl, List.drop_left]

/-- Instance of the amended C4 at the buffer `"p"` followed by `0x02 0x80`. -/
theorem Uvarint_canonical_witness :
    AppendUvarint [] 256 =
      ([112, 0x02, 0x80] : List Nat).drop (([112, 0x02, 0x80] : List Nat).length - (2 : Int).toNat) :=
  Uvarint_canonical [112, 0x02, 0x80] (by decide) 256 2 (by decide) (by decide) (by decide)

/-- C5. Byte layout of `AppendUvarint`: for every buffer `p` and `uint64` `x`,
with `n = (bitlength x - 1) / 7` and `g k = (x >> 7k) & 0x7f`,
`AppendUvarint p x = p ++ [g n, g (n-1) | 0x80, ..., g 0 | 0x80]`: `p` is kept
as a prefix, the first appended byte is the most significant group with its
high bit clear, every later byte is the next lower group with its high bit
set. -/
theorem AppendUvarint_layout (p : List Nat) (x : Nat) (hx : IsUint64 x) :
    AppendUvarint p x =
      p ++ ((x >>> (7 * ((bitlength x - 1) / 7))) &&& 0x7f) ::
        ((List.range ((bitlength x - 1) / 7)).reverse.map
          (fun k => ((x >>> (7 * k)) &&& 0x7f) ||| 0x80)) := by
  rw [← encN_eq_bitlength x hx, AppendUvarint_eq p x hx, top_eq x hx, contLE_eq_map,
    List.map_reverse]

/-- Instance of C5 at the prefix `"p"` and the value `300`. -/
theorem AppendUvarint_layout_witness :
    AppendUvarint [112] 300 =
      [112] ++ ((300 >>> (7 * ((bitlength 300 - 1) / 7))) &&& 0x7f) ::
        ((List.range ((bitlength 300 - 1) / 7)).reverse.map
          (fun k => ((300 >>> (7 * k)) &&& 0x7f) ||| 0x80)) :=
  AppendUvarint_layout [112] 300 (by decide)

/-- C6. Canonical length: for every `uint64` `x` the number of bytes
`AppendUvarint` appends, and the count `PutUvarint` returns when the buffer has
room for them, is `n + 1` with `n = (bitlength x - 1) / 7`; it is the least
`k >= 1` with `x < 2 ^ (7 k)`; so `0` and `127` take one byte (`0` encodes as
the single byte `0x00`) and `128`, `255` and `256` take two bytes. -/
theorem canonical_length (x : Nat) (hx : IsUint64 x) :
    (∀ p : List Nat, (AppendUvarint p x).length = p.length + ((bitlength x - 1) / 7 + 1)) ∧
      (∀ buf : List Nat, (bitlength x - 1) / 7 + 1 ≤ buf.length →
        ∃ buf1, PutUvarint buf x =
          Outcome.ret (buf1, (((bitlength x - 1) / 7 + 1 : Nat) : Int))) ∧
      x < 2 ^ (7 * ((bitlength x - 1) / 7 + 1)) ∧
      (∀ k, 1 ≤ k → x < 2 ^ (7 * k) → (bitlength x - 1) / 7 + 1 ≤ k) ∧
      AppendUvarint [] 0 = [0x00] ∧ (AppendUvarint [] 127).length = 1 ∧
      (AppendUvarint [] 128).length = 2 ∧ (AppendUvarint [] 255).length = 2 ∧
      (AppendUvarint [] 256).length = 2 := by
  rw [← encN_eq_bitlength x hx]
  refine ⟨fun p => AppendUvarint_length p x hx, ?_, ?_, ?_, by decide, by decide, by decide,
    by decide, by decide⟩
  · intro buf hbuf
    refine ⟨(x / 128 ^ encN x) :: (contLE (encN x) x).reverse ++ buf.drop (encN x + 1), ?_⟩
    rw [PutUvarint_eq buf x hx (by omega)]
    simp
  · rw [← pow128]; exact lt_pow_encN x hx
  · intro k hk hlt
    obtain ⟨j, rfl⟩ : ∃ j, k = j + 1 := ⟨k - 1, by omega⟩
    rw [← pow128] at hlt
    have := encN_le_of_lt x j hx hlt
    omega

/-- Instance of C6 at `x = 300`, with a four-byte destination buffer. -/
theorem canonical_length_witness :
    (AppendUvarint [112] 300).length = ([112] : List Nat).length + ((bitlength 300 - 1) / 7 + 1) ∧
      (∃ buf1, PutUvarint [0, 0, 0, 0] 300 =
        Outcome.ret (buf1, (((bitlength 300 - 1) / 7 + 1 : Nat) : Int))) ∧
      (300 : Nat) < 2 ^ (7 * ((bitlength 300 - 1) / 7 + 1)) ∧
      (bitlength 300 - 1) / 7 + 1 ≤ 2 :=
  ⟨(canonical_length 300 (by decide)).1 [112],
    (canonical_length 300 (by decide)).2.1 [0, 0, 0, 0]
      (by rw [← encN_eq_bitlength 300 (by decide)]; decide),
    (canonical_length 300 (by decide)).2.2.1,
    (canonical_length 300 (by decide)).2.2.2.1 2 (by decide) (by decide)⟩

/-- C7. Maximum lengths: for every `uint64` `x` the unsigned encoding has at
least 1 and at most `MaxVarintLen64 = 10` bytes; for every `x < 2 ^ 32` at most
`MaxVarintLen32 = 5`; for every `x < 2 ^ 16` at most `MaxVarintLen16 = 3`; and
each constant is attained, by `2 ^ 64 - 1`, `2 ^ 32 - 1` and `2 ^ 16 - 1`. -/
theorem max_length_bounds (p : List Nat) (x : Nat) (hx : IsUint64 x) :
    (1 ≤ ((AppendUvarint p x).length : Int) - (p.length : Int) ∧
        ((AppendUvarint p x).length : Int) - (p.length : Int) ≤ MaxVarintLen64) ∧
      (x < 2 ^ 32 → ((AppendUvarint p x).length : Int) - (p.length : Int) ≤ MaxVarintLen32) ∧
      (x < 2 ^ 16 → ((AppendUvarint p x).length : Int) - (p.length : Int) ≤ MaxVarintLen16) ∧
      MaxVarintLen64 = 10 ∧ MaxVarintLen32 = 5 ∧ MaxVarintLen16 = 3 ∧
      ((AppendUvarint [] (2 ^ 64 - 1)).length : Int) = MaxVarintLen64 ∧
      ((AppendUvarint [] (2 ^ 32 - 1)).length : Int) = MaxVarintLen32 ∧
      ((AppendUvarint [] (2 ^ 16 - 1)).length : Int) = MaxVarintLen16 := by
  have hlen := AppendUvarint_length p x hx
  have h9 := encN_le x
  refine ⟨?_, ?_, ?_, rfl, rfl, rfl, by decide, by decide, by decide⟩
  · rw [hlen, MaxVarintLen64]; omega
  · intro h32
    have h : x < 128 ^ (4 + 1) := lt_trans h32 (by norm_num)
    have := encN_le_of_lt x 4 hx h
    rw [hlen, MaxVarintLen32]; omega
  · intro h16
    have h : x < 128 ^ (2 + 1) := lt_trans h16 (by norm_num)
    have := encN_le_of_lt x 2 hx h
    rw [hlen, MaxVarintLen16]; omega

/-- Instance of C7 at the prefix `"p"` and `x = 2 ^ 16 - 1`. -/
theorem max_length_bounds_witness :
    (1 ≤ ((AppendUvarint [112] 65535).length : Int) - (([112] : List Nat).length : Int) ∧
        ((AppendUvarint [112] 65535).length : Int) - (([112] : List Nat).length : Int)
          ≤ MaxVarintLen64) ∧
      ((AppendUvarint [112] 65535).length : Int) - (([112] : List Nat).length : Int)
        ≤ MaxVarintLen32 ∧
      ((AppendUvarint [112] 65535).length : Int) - (([112] : List Nat).length : Int)
        ≤ MaxVarintLen16 :=
  ⟨(max_length_bounds [112] 65535 (by decide)).1,
    (max_length_bounds [112] 65535 (by decide)).2.1 (by decide),
    (max_length_bounds [112] 65535 (by decide)).2.2.1 (by decide)⟩

/-- C8. `PutUvarint` agrees with `AppendUvarint`: for every buffer `buf` with
`len buf >= MaxVarintLen64` and every `uint64` `x`, `PutUvarint buf x` does not
fault, returns `k = len (AppendUvarint [] x)`, leaves `buf[0:k]` equal to
`AppendUvarint [] x`, and leaves every byte of `buf` at index `>= k`
unchanged. -/
theorem PutUvarint_agrees (buf : List Nat) (x : Nat) (hx : IsUint64 x)
    (hlen : MaxVarintLen64 ≤ (buf.length : Int)) :
    ∃ buf1, PutUvarint buf x = Outcome.ret (buf1, ((AppendUvarint [] x).length : Int)) ∧
      buf1.length = buf.length ∧
      buf1.take (AppendUvarint [] x).length = AppendUvarint [] x ∧
      buf1.drop (AppendUvarint [] x).length = buf.drop (AppendUvarint [] x).length := by
  have h9 := encN_le x
  have hl : encN x < buf.length := by rw [MaxVarintLen64] at hlen; omega
  have hk : (AppendUvarint [] x).length = encN x + 1 := by
    rw [AppendUvarint_length [] x hx]; simp
  have ha := AppendUvarint_eq [] x hx
  rw [List.nil_append] at ha
  refine ⟨AppendUvarint [] x ++ buf.drop (encN x + 1), ?_, ?_, ?_, ?_⟩
  · rw [PutUvarint_eq buf x hx hl, hk, ha]
    simp
  · rw [List.length_append, hk, List.length_drop]; omega
  · rw [List.take_left]
  · rw [List.drop_left, hk]

/-- Instance of C8 at a ten-byte buffer of `0xaa` and `x = 300`. -/
theorem PutUvarint_agrees_witness :
    ∃ buf1, PutUvarint [170, 170, 170, 170, 170, 170, 170, 170, 170, 170] 300 =
        Outcome.ret (buf1, ((AppendUvarint [] 300).length : Int)) ∧
      buf1.length = ([170, 170, 170, 170, 170, 170, 170, 170, 170, 170] : List Nat).length ∧
      buf1.take (AppendUvarint [] 300).length = AppendUvarint [] 300 ∧
      buf1.drop (AppendUvarint [] 300).length =
        ([170, 170, 170, 170, 170, 170, 170, 170, 170, 170] : List Nat).drop
          (AppendUvarint [] 300).length :=
  PutUvarint_agrees [170, 170, 170, 170, 170, 170, 170, 170, 170, 170] 300 (by decide)
    (by decide)

/-- C9 as stated fails: a one-byte buffer is shorter than `MaxVarintLen64`,
yet `PutUvarint` returns the count `1` for `x = 1` instead of faulting. -/
theorem PutUvarint_short_counterexample :
    IsBuf [0] ∧ IsUint64 1 ∧ (([0] : List Nat).length : Int) < MaxVarintLen64 ∧
      PutUvarint [0] 1 = Outcome.ret ([1], 1) := by
  decide

/-- C9, amended. Capacity precondition of the bounded encoder: for every
`uint64` `x` and every buffer `buf` with fewer bytes than the encoding of `x`
(`len buf < len (AppendUvarint [] x)`, which is at most `MaxVarintLen64`),
`PutUvarint buf x` fails with a bounds fault instead of returning a byte
count. -/
theorem PutUvarint_too_small (buf : List Nat) (x : Nat) (hx : IsUint64 x)
    (hlen : buf.length < (AppendUvarint [] x).length) :
    ∃ b, PutUvarint buf x = Outcome.fault b := by
  rw [AppendUvarint_length [] x hx] at hlen
  simp only [List.length_nil, Nat.zero_add] at hlen
  exact ⟨buf, PutUvarint_fault buf x hx (by omega)⟩

/-- Instance of the amended C9 at a one-byte buffer and `x = 300`. -/
theorem PutUvarint_too_small_witness : ∃ b, PutUvarint [0] 300 = Outcome.fault b :=
  PutUvarint_too_small [0] 300 (by decide) (by decide)

/-- C10 as stated fails: in a buffer of eleven bytes that all have the high
bit set, `Uvarint` returns the overflow count `-11`, not `0`. -/
theorem Uvarint_all_continuation_counterexample :
    IsBuf [0x80, 0x80, 0x80, 0x80, 0x80, 0x80, 0x80, 0x80, 0x80, 0x80, 0x80] ∧
      (∀ b ∈ [0x80, 0x80, 0x80, 0x80, 0x80, 0x80, 0x80, 0x80, 0x80, 0x80, 0x80],
        Nat.testBit b 7 = true) ∧
      Uvarint [0x80, 0x80, 0x80, 0x80, 0x80, 0x80, 0x80, 0x80, 0x80, 0x80, 0x80] = (0, -11) := by
  decide

/-- C10, amended. Insufficient data: for every buffer of at most
`MaxVarintLen64` bytes, the empty one included, in which every byte has its
high bit set (no terminator byte), `Uvarint` returns value `0` and byte
count `0`. -/
theorem Uvarint_all_continuation (buf : List Nat)
    (hlen : (buf.length : Int) ≤ MaxVarintLen64)
    (hall : ∀ b ∈ buf, Nat.testBit b 7 = true) : Uvarint buf = (0, 0) := by
  rw [MaxVarintLen64] at hlen
  rw [Uvarint_eq_scan]
  apply scan_all_cont
  · intro y hy
    have := Nat.testBit_implies_ge (hall y (by simpa using hy))
    simpa using this
  · simp only [List.length_reverse]; omega

/-- Instance of the amended C10 at a three-byte buffer. -/
theorem Uvarint_all_continuation_witness : Uvarint [0x80, 0xff, 0x81] = (0, 0) :=
  Uvarint_all_continuation [0x80, 0xff, 0x81] (by decide) (by decide)

/-- C11. Overflow by length: for every buffer of 11 or more bytes whose last
10 bytes all have the high bit set, `Uvarint` returns value `0` and the
negative byte count `-11`, the number of bytes scanned, however long the
buffer is. -/
theorem Uvarint_overflow_length (buf : List Nat) (hlen : 11 ≤ buf.length)
    (hall : ∀ b ∈ lastBytes buf 10, Nat.testBit b 7 = true) : Uvarint buf = (0, -11) := by
  rw [Uvarint_split buf 10 (by omega)]
  apply scan_overflow_len
  · intro z hz
    exact ge_of_testBit z (hall z (by simpa using hz))
  · rw [List.length_reverse, lastBytes_length buf 10 (by omega)]

/-- Instance of C11 at a twelve-byte buffer whose first two bytes are
terminators. -/
theorem Uvarint_overflow_length_witness :
    Uvarint [0x01, 0x02, 0x80, 0x81, 0x82, 0x83, 0x84, 0x85, 0x86, 0x87, 0x88, 0xff] = (0, -11) :=
  Uvarint_overflow_length [0x01, 0x02, 0x80, 0x81, 0x82, 0x83, 0x84, 0x85, 0x86, 0x87, 0x88, 0xff]
    (by decide) (by decide)

/-- C12. Tenth-byte overflow check: for every buffer of at least 10 bytes whose
last 9 bytes have the high bit set and whose tenth byte from the tail, `b`,
has the high bit clear: if `b > 1` then `Uvarint` returns `(0, -10)`; if
`b <= 1` then `Uvarint` succeeds with count 10 and value `b << 63` OR the
63-bit value assembled from the low 7 bits of the last 9 bytes. -/
theorem Uvarint_tenth_byte (buf : List Nat) (hbuf : IsBuf buf) (hlen : 10 ≤ buf.length)
    (h9 : ∀ b ∈ lastBytes buf 9, Nat.testBit b 7 = true)
    (hb : Nat.testBit (byteFromTail buf 9) 7 = false) :
    (1 < byteFromTail buf 9 → Uvarint buf = (0, -10)) ∧
      (byteFromTail buf 9 ≤ 1 →
        Uvarint buf =
          (shl64 (byteFromTail buf 9) 63 |||
              ((List.range 9).map (fun k => byteFromTail buf k % 128 * 128 ^ k)).sum, 10) ∧
          ((List.range 9).map (fun k => byteFromTail buf k % 128 * 128 ^ k)).sum < 2 ^ 63) := by
  have hsplit := split_tail buf 9 (by omega)
  have hl9 := lastBytes_length buf 9 (by omega)
  have hmem : byteFromTail buf 9 ∈
      buf.take (buf.length - (9 + 1)) ++ byteFromTail buf 9 :: lastBytes buf 9 := by simp
  rw [← hsplit] at hmem
  have hb256 : byteFromTail buf 9 < 256 := hbuf _ hmem
  have hb128 := lt_of_testBit _ hb256 hb
  have hcs : ∀ z ∈ (lastBytes buf 9).reverse, 128 ≤ z := fun z hz =>
    ge_of_testBit z (h9 z (by simpa using hz))
  constructor
  · intro h1
    rw [Uvarint_split buf 9 (by omega)]
    exact scan_overflow_tenth _ _ _ _ _ _ hcs hb128 h1 (by rw [List.length_reverse, hl9])
  · intro h1
    have hs := scan_success (lastBytes buf 9).reverse (byteFromTail buf 9)
      (buf.take (buf.length - (9 + 1))).reverse 0 0 hcs hb128
      (by rw [List.length_reverse, hl9]) (fun _ => h1) (by norm_num)
    have hsum : valLE (lastBytes buf 9).reverse =
        ((List.range 9).map (fun k => byteFromTail buf k % 128 * 128 ^ k)).sum := by
      rw [valLE_eq_sum, List.length_reverse, hl9]
      congr 1
      apply List.map_congr_left
      intro k hk
      have hk9 : k < 9 := List.mem_range.1 hk
      have hg := getD_reverse_tail (buf.take (buf.length - (9 + 1))) (byteFromTail buf 9)
        (lastBytes buf 9) k (by omega)
      rw [← hsplit, List.getD_append _ _ _ _ (by rw [List.length_reverse, hl9]; exact hk9)] at hg
      rw [hg]
    have hlow := valLE_lt (lastBytes buf 9).reverse
    rw [List.length_reverse, hl9] at hlow
    have h63 : (128 : Nat) ^ 9 = 2 ^ 63 := by norm_num
    rw [hsum, h63] at hlow
    refine ⟨?_, hlow⟩
    rw [Uvarint_split buf 9 (by omega), hs, valLE_append, valLE_cons, valLE_nil, hsum,
      List.length_reverse, hl9, shl64_top _ 9 hb128 (le_refl _) (fun _ => h1),
      Nat.lor_comm, or_shl_eq_add _ _ 9 (by rw [h63]; exact hlow), Nat.mod_eq_of_lt hb128]
    simp

/-- Instances of C12: a ten-byte buffer with tenth byte `0x01` decodes to
`2 ^ 63`, the same buffer with tenth byte `0x02` overflows. -/
theorem Uvarint_tenth_byte_witness :
    (Uvarint [0x01, 0x80, 0x80, 0x80, 0x80, 0x80, 0x80, 0x80, 0x80, 0x80] =
        (shl64 (byteFromTail [0x01, 0x80, 0x80, 0x80, 0x80, 0x80, 0x80, 0x80, 0x80, 0x80] 9) 63 |||
            ((List.range 9).map (fun k =>
              byteFromTail [0x01, 0x80, 0x80, 0x80, 0x80, 0x80, 0x80, 0x80, 0x80, 0x80] k % 128 *
                128 ^ k)).sum, 10) ∧
        ((List.range 9).map (fun k =>
          byteFromTail [0x01, 0x80, 0x80, 0x80, 0x80, 0x80, 0x80, 0x80, 0x80, 0x80] k % 128 *
            128 ^ k)).sum < 2 ^ 63) ∧
      Uvarint [0x02, 0x80, 0x80, 0x80, 0x80, 0x80, 0x80, 0x80, 0x80, 0x80] = (0, -10) :=
  ⟨(Uvarint_tenth_byte [0x01, 0x80, 0x80, 0x80, 0x80, 0x80, 0x80, 0x80, 0x80, 0x80]
      (by decide) (by decide) (by decide) (by decide)).2 (by decide),
    (Uvarint_tenth_byte [0x02, 0x80, 0x80, 0x80, 0x80, 0x80, 0x80, 0x80, 0x80, 0x80]
      (by decide) (by decide) (by decide) (by decide)).1 (by decide)⟩

/-- C13. Result classification of the decoders: for every buffer `buf`,
`Uvarint buf` and `Varint buf` return either a success `(v, n)` with
`1 <= n <= min(10, len buf)`, so that the truncation `buf[:len(buf)-n]` is in
bounds, or an error `(0, n)` with `n` in `{0, -10, -11}`; in particular
whenever the count is `<= 0` the returned value is `0`, for `Varint` as well
as for `Uvarint`. -/
theorem decoder_result_classes (buf : List Nat) :
    ((1 ≤ (Uvarint buf).2 ∧ (Uvarint buf).2 ≤ min 10 (buf.length : Int)) ∨
        ((Uvarint buf).1 = 0 ∧
          ((Uvarint buf).2 = 0 ∨ (Uvarint buf).2 = -10 ∨ (Uvarint buf).2 = -11))) ∧
      ((1 ≤ (Varint buf).2 ∧ (Varint buf).2 ≤ min 10 (buf.length : Int)) ∨
        ((Varint buf).1 = 0 ∧
          ((Varint buf).2 = 0 ∨ (Varint buf).2 = -10 ∨ (Varint buf).2 = -11))) ∧
      ((Uvarint buf).2 ≤ 0 → (Uvarint buf).1 = 0) ∧
      ((Varint buf).2 ≤ 0 → (Varint buf).1 = 0) := by
  have hcls : (1 ≤ (Uvarint buf).2 ∧ (Uvarint buf).2 ≤ min 10 (buf.length : Int)) ∨
      ((Uvarint buf).1 = 0 ∧
        ((Uvarint buf).2 = 0 ∨ (Uvarint buf).2 = -10 ∨ (Uvarint buf).2 = -11)) := by
    rcases scan_class buf.reverse 1 0 0 (le_refl _) (by decide) with h | h
    · rw [← Uvarint_eq_scan] at h
      obtain ⟨pre, b, tl, hl, _, _, hlen, _, hn, _⟩ :=
        Uvarint_pos_layout buf (Uvarint buf).1 (Uvarint buf).2 rfl h
      left
      have hbl : buf.length = pre.length + (tl.length + 1) := by rw [hl]; simp
      rw [hn, hbl]
      omega
    · rw [← Uvarint_eq_scan] at h
      exact Or.inr h
  have hV : Varint buf = (zag (Uvarint buf).1, (Uvarint buf).2) := Varint_eq buf
  have hcls2 : (1 ≤ (Varint buf).2 ∧ (Varint buf).2 ≤ min 10 (buf.length : Int)) ∨
      ((Varint buf).1 = 0 ∧
        ((Varint buf).2 = 0 ∨ (Varint buf).2 = -10 ∨ (Varint buf).2 = -11)) := by
    rw [hV]
    rcases hcls with h | h
    · exact Or.inl h
    · right
      simp only [h.1, zag_zero, true_and]
      exact h.2
  refine ⟨hcls, hcls2, ?_, ?_⟩
  · intro h0
    rcases hcls with h | h
    · omega
    · exact h.1
  · intro h0
    rcases hcls2 with h | h
    · omega
    · exact h.1

/-- Instance of C13 at an eleven-byte buffer without terminator, on which both
decoders report an overflow with value `0`. -/
theorem decoder_result_classes_witness :
    (Uvarint [0x80, 0x80, 0x80, 0x80, 0x80, 0x80, 0x80, 0x80, 0x80, 0x80, 0x80]).1 = 0 ∧
      (Varint [0x80, 0x80, 0x80, 0x80, 0x80, 0x80, 0x80, 0x80, 0x80, 0x80, 0x80]).1 = 0 :=
  ⟨(decoder_result_classes
      [0x80, 0x80, 0x80, 0x80, 0x80, 0x80, 0x80, 0x80, 0x80, 0x80, 0x80]).2.2.1 (by decide),
    (decoder_result_classes
      [0x80, 0x80, 0x80, 0x80, 0x80, 0x80, 0x80, 0x80, 0x80, 0x80, 0x80]).2.2.2 (by decide)⟩

/-- C14. Zig-zag encoding: for every `int64` `x`, every buffer `p` and every
destination `buf`, `AppendVarint p x = AppendUvarint p u` and `PutVarint buf x`
behaves exactly as `PutUvarint buf u`, where `u` is the `uint64` equal to `2x`
when `x >= 0` and to `2|x| - 1` when `x < 0`; so `0 -> 0`, `-1 -> 1`, `1 -> 2`,
`-2 -> 3`, `2 -> 4` and `MinInt64 -> 2 ^ 64 - 1` without wrap-around. -/
theorem zigzag_encoding (x : Int) (hx : IsInt64 x) :
    (∀ p : List Nat, AppendVarint p x = AppendUvarint p (zigzagSpec x)) ∧
      (∀ buf : List Nat, PutVarint buf x = PutUvarint buf (zigzagSpec x)) ∧
      IsUint64 (zigzagSpec x) ∧
      (∀ p : List Nat, AppendVarint p 0 = AppendUvarint p 0 ∧
        AppendVarint p (-1) = AppendUvarint p 1 ∧ AppendVarint p 1 = AppendUvarint p 2 ∧
        AppendVarint p (-2) = AppendUvarint p 3 ∧ AppendVarint p 2 = AppendUvarint p 4 ∧
        AppendVarint p (-(2 ^ 63)) = AppendUvarint p (2 ^ 64 - 1)) ∧
      zigzagSpec 0 = 0 ∧ zigzagSpec (-1) = 1 ∧ zigzagSpec 1 = 2 ∧ zigzagSpec (-2) = 3 ∧
      zigzagSpec 2 = 4 ∧ zigzagSpec (-(2 ^ 63)) = 2 ^ 64 - 1 := by
  have hz := zig_eq_zigzagSpec x hx
  refine ⟨?_, ?_, ?_, ?_,
    by rw [← zig_eq_zigzagSpec 0 (by decide)]; decide,
    by rw [← zig_eq_zigzagSpec (-1) (by decide)]; decide,
    by rw [← zig_eq_zigzagSpec 1 (by decide)]; decide,
    by rw [← zig_eq_zigzagSpec (-2) (by decide)]; decide,
    by rw [← zig_eq_zigzagSpec 2 (by decide)]; decide,
    by rw [← zig_eq_zigzagSpec (-(2 ^ 63)) (by decide)]; decide⟩
  · intro p; rw [AppendVarint_eq, hz]
  · intro buf; rw [PutVarint_eq, hz]
  · rw [← hz]; exact zig_lt x hx
  · intro p
    simp only [AppendVarint_eq]
    have e0 : zig 0 = 0 := by decide
    have e1 : zig (-1) = 1 := by decide
    have e2 : zig 1 = 2 := by decide
    have e3 : zig (-2) = 3 := by decide
    have e4 : zig 2 = 4 := by decide
    have e5 : zig (-(2 ^ 63)) = 2 ^ 64 - 1 := by decide
    rw [e0, e1, e2, e3, e4, e5]
    exact ⟨rfl, rfl, rfl, rfl, rfl, rfl⟩

/-- Instance of C14 at `MinInt64`. -/
theorem zigzag_encoding_witness :
    AppendVarint [112] (-(2 ^ 63)) = AppendUvarint [112] (zigzagSpec (-(2 ^ 63))) ∧
      PutVarint [0, 0] (-(2 ^ 63)) = PutUvarint [0, 0] (zigzagSpec (-(2 ^ 63))) ∧
      IsUint64 (zigzagSpec (-(2 ^ 63))) :=
  ⟨(zigzag_encoding (-(2 ^ 63)) (by decide)).1 [112],
    (zigzag_encoding (-(2 ^ 63)) (by decide)).2.1 [0, 0],
    (zigzag_encoding (-(2 ^ 63)) (by decide)).2.2.1⟩

/-- C15. The signed decoder is the unsigned decoder followed by the inverse
zig-zag: for every buffer `buf`, if `Uvarint buf = (u, n)` then
`Varint buf = (x, n)` with the same count, where `x` is `u >> 1`,
bit-complemented when the low bit of `u` is set; this `x` is the unique `int64`
whose zig-zag image is `u`, and the zig-zag mapping is a bijection between
`int64` and `uint64`. -/
theorem Varint_unzigzag (buf : List Nat) (u : Nat) (n : Int) (h : Uvarint buf = (u, n)) :
    Varint buf = (unzigzagSpec u, n) ∧ IsInt64 (unzigzagSpec u) ∧
      zigzagSpec (unzigzagSpec u) = u ∧
      (∀ y : Int, IsInt64 y → zigzagSpec y = u → y = unzigzagSpec u) ∧
      (∀ y : Int, IsInt64 y → IsUint64 (zigzagSpec y)) ∧
      (∀ w : Nat, IsUint64 w → ∃ y : Int, (IsInt64 y ∧ zigzagSpec y = w) ∧
        ∀ z : Int, IsInt64 z ∧ zigzagSpec z = w → z = y) := by
  have hu : u < 2 ^ 64 := by
    have := Uvarint_lt buf
    rw [h] at this
    exact this
  refine ⟨?_, unzigzagSpec_range u hu, zigzagSpec_unzigzagSpec u, ?_, ?_, ?_⟩
  · rw [Varint_eq, h, zag_eq_unzigzagSpec u hu]
  · intro y _ hy
    apply zigzagSpec_inj
    rw [hy, zigzagSpec_unzigzagSpec]
  · intro y hy
    rw [← zig_eq_zigzagSpec y hy]
    exact zig_lt y hy
  · intro w hw
    refine ⟨unzigzagSpec w, ⟨unzigzagSpec_range w hw, zigzagSpec_unzigzagSpec w⟩, ?_⟩
    rintro z ⟨_, hz⟩
    apply zigzagSpec_inj
    rw [hz, zigzagSpec_unzigzagSpec]

/-- Instance of C15 at the buffer `0x01 0x81` of `ExampleVarint`, which holds
`u = 129`, that is `x = -65`. -/
theorem Varint_unzigzag_witness :
    Varint [0x01, 0x81] = (unzigzagSpec 129, 2) ∧ IsInt64 (unzigzagSpec 129) ∧
      zigzagSpec (unzigzagSpec 129) = 129 :=
  ⟨(Varint_unzigzag [0x01, 0x81] 129 2 (by decide)).1,
    (Varint_unzigzag [0x01, 0x81] 129 2 (by decide)).2.1,
    (Varint_unzigzag [0x01, 0x81] 129 2 (by decide)).2.2.1⟩

/-- C16. The decoder looks only at the consumed region: for every buffer `buf`
on which `Uvarint` returns `(v, n)` with `n > 0`, and for every buffer `p`
(empty or not), `Uvarint (p ++ last n bytes of buf)` also returns `(v, n)`. -/
theorem Uvarint_frame (buf : List Nat) (v : Nat) (n : Int) (h : Uvarint buf = (v, n))
    (hn : 0 < n) (p : List Nat) : Uvarint (p ++ lastBytes buf n.toNat) = (v, n) := by
  obtain ⟨pre, b, tl, hl, hb, htl, hlen, h9, hn1, hv⟩ := Uvarint_pos_layout buf v n h hn
  have hnat : n.toNat = tl.length + 1 := by rw [hn1]; simp
  rw [hnat, hl, lastBytes_layout, Uvarint_of_layout p b tl hb htl hlen h9, hv, hn1]

/-- Instance of C16: the region consumed from `"pr" 0x02 0x80` decodes alike
behind the prefix `0xff 0x00` and behind the empty prefix. -/
theorem Uvarint_frame_witness :
    Uvarint ([0xff, 0x00] ++ lastBytes [112, 114, 0x02, 0x80] (2 : Int).toNat) = (256, 2) ∧
      Uvarint ([] ++ lastBytes [112, 114, 0x02, 0x80] (2 : Int).toNat) = (256, 2) :=
  ⟨Uvarint_frame [112, 114, 0x02, 0x80] 256 2 (by decide) (by decide) [0xff, 0x00],
    Uvarint_frame [112, 114, 0x02, 0x80] 256 2 (by decide) (by decide) []⟩

/-- C17. The canonical encoding is the unique minimal one: for every `uint64`
`v` and every buffer `s` on which `Uvarint` succeeds with `(v, n)`,
`n >= len (AppendUvarint [] v)`, and if `n` equals that length then the last
`n` bytes of `s` are exactly `AppendUvarint [] v`; in particular for every
`x >= 128` the first byte appended by `AppendUvarint` (the most significant
group) is non-zero. -/
theorem Uvarint_minimal (s : List Nat) (hs : IsBuf s) (v : Nat) (n : Int)
    (h : Uvarint s = (v, n)) (hn : 0 < n) :
    ((AppendUvarint [] v).length : Int) ≤ n ∧
      (n = ((AppendUvarint [] v).length : Int) → lastBytes s n.toNat = AppendUvarint [] v) ∧
      (∀ (p : List Nat) (x : Nat), IsUint64 x → 128 ≤ x →
        (AppendUvarint p x).getD p.length 0 ≠ 0) := by
  obtain ⟨pre, b, tl, hl, hb, htl, hlen, h9, hn1, hv⟩ := Uvarint_pos_layout s v n h hn
  have hv64 : v < 2 ^ 64 := by rw [hv]; exact valLE_layout_lt b tl hb hlen h9
  have hvlt : v < 128 ^ (tl.length + 1) := by
    have := valLE_lt (tl.reverse ++ [b])
    rw [hv]; simpa using this
  have hle := encN_le_of_lt v tl.length hv64 hvlt
  have hlenv : (AppendUvarint [] v).length = encN v + 1 := by
    rw [AppendUvarint_length [] v hv64]; simp
  have hnat : n.toNat = tl.length + 1 := by rw [hn1]; simp
  refine ⟨by rw [hlenv, hn1]; omega, ?_, ?_⟩
  · intro heq
    rw [hlenv, hn1] at heq
    have hen : encN v = tl.length := by omega
    have htl2 : ∀ y ∈ tl, 128 ≤ y ∧ y < 256 := fun y hy =>
      ⟨htl y hy, hs y (by rw [hl]; simp [hy])⟩
    have hc : tl = [] ∨ b ≠ 0 := by
      by_cases h0 : tl.length = 0
      · exact Or.inl (List.eq_nil_of_length_eq_zero h0)
      · right
        intro hb0
        have hp := pow_encN_le v hv64 (by omega)
        have hlow := valLE_lt tl.reverse
        rw [hen, hv, valLE_append, valLE_cons, valLE_nil, hb0, List.length_reverse] at hp
        rw [List.length_reverse] at hlow
        simp only [Nat.zero_mod, Nat.mul_zero, Nat.add_zero] at hp
        omega
    rw [hnat, hl, lastBytes_layout, hv, AppendUvarint_valLE b tl hb htl2 hlen h9 hc]
  · intro p x hx hx128
    have hne : encN x ≠ 0 := by
      intro h0
      have := lt_pow_encN x hx
      rw [h0] at this
      omega
    have hp := pow_encN_le x hx hne
    have hpos : 0 < x / 128 ^ encN x := Nat.div_pos hp (by positivity)
    rw [AppendUvarint_eq p x hx, List.getD_append_right _ _ _ _ (le_refl _)]
    simp only [Nat.sub_self, List.getD_cons_zero]
    omega

/-- Instance of C17 at the buffer `"p" 0x02 0x80`, and at `x = 128` for the
first appended byte. -/
theorem Uvarint_minimal_witness :
    ((AppendUvarint [] 256).length : Int) ≤ 2 ∧
      lastBytes [112, 0x02, 0x80] (2 : Int).toNat = AppendUvarint [] 256 ∧
      (AppendUvarint [112] 128).getD ([112] : List Nat).length 0 ≠ 0 :=
  ⟨(Uvarint_minimal [112, 0x02, 0x80] (by decide) 256 2 (by decide) (by decide)).1,
    (Uvarint_minimal [112, 0x02, 0x80] (by decide) 256 2 (by decide) (by decide)).2.1
      (by decide),
    (Uvarint_minimal [112, 0x02, 0x80] (by decide) 256 2 (by decide) (by decide)).2.2
      [112] 128 (by decide) (by decide)⟩

/-- C18. No silent truncation on success: for every buffer on which `Uvarint`
returns `(v, n)` with `n > 0`, `v` equals the sum over `k = 0..n-1` of
`(b_k mod 128) * 128 ^ k`, where `b_k` is the `k`-th byte counted from the tail
of the buffer; that sum is below `2 ^ 64`, so no payload bit is lost to the
64-bit shifts. -/
theorem Uvarint_value (buf : List Nat) (v : Nat) (n : Int) (h : Uvarint buf = (v, n))
    (hn : 0 < n) :
    v = ((List.range n.toNat).map (fun k => byteFromTail buf k % 128 * 128 ^ k)).sum ∧
      ((List.range n.toNat).map (fun k => byteFromTail buf k % 128 * 128 ^ k)).sum < 2 ^ 64 := by
  obtain ⟨pre, b, tl, hl, hb, htl, hlen, h9, hn1, hv⟩ := Uvarint_pos_layout buf v n h hn
  have hnat : n.toNat = tl.length + 1 := by rw [hn1]; simp
  have hsum : v =
      ((List.range n.toNat).map (fun k => byteFromTail buf k % 128 * 128 ^ k)).sum := by
    rw [hv, valLE_eq_sum, hnat, hl]
    simp only [List.length_append, List.length_reverse, List.length_singleton]
    congr 1
    apply List.map_congr_left
    intro k hk
    rw [getD_reverse_tail pre b tl k (List.mem_range.1 hk)]
  refine ⟨hsum, ?_⟩
  rw [← hsum, hv]
  exact valLE_layout_lt b tl hb hlen h9

/-- Instance of C18 at the ten-byte encoding of `2 ^ 64 - 1`. -/
theorem Uvarint_value_witness :
    (2 ^ 64 - 1 : Nat) =
        ((List.range (10 : Int).toNat).map (fun k =>
          byteFromTail [0x01, 0xff, 0xff, 0xff, 0xff, 0xff, 0xff, 0xff, 0xff, 0xff] k % 128 *
            128 ^ k)).sum ∧
      ((List.range (10 : Int).toNat).map (fun k =>
        byteFromTail [0x01, 0xff, 0xff, 0xff, 0xff, 0xff, 0xff, 0xff, 0xff, 0xff] k % 128 *
          128 ^ k)).sum < 2 ^ 64 :=
  Uvarint_value [0x01, 0xff, 0xff, 0xff, 0xff, 0xff, 0xff, 0xff, 0xff, 0xff] (2 ^ 64 - 1) 10
    (by decide) (by decide)

/-- C19. `PutUvarint` fails exactly when the buffer is shorter than the
encoding, and fails before writing: for every buffer `buf` and `uint64` `x`,
`PutUvarint buf x` faults (index out of range) if and only if
`len buf < (bitlength x - 1) / 7 + 1`; in that case the fault occurs on the
first store, so no byte of `buf` has been modified; otherwise it returns. -/
theorem PutUvarint_fault_iff (buf : List Nat) (x : Nat) (hx : IsUint64 x) :
    ((∃ b, PutUvarint buf x = Outcome.fault b) ↔ buf.length < (bitlength x - 1) / 7 + 1) ∧
      (buf.length < (bitlength x - 1) / 7 + 1 → PutUvarint buf x = Outcome.fault buf) ∧
      ((bitlength x - 1) / 7 + 1 ≤ buf.length → ∃ r, PutUvarint buf x = Outcome.ret r) := by
  rw [← encN_eq_bitlength x hx]
  have hshort : buf.length < encN x + 1 → PutUvarint buf x = Outcome.fault buf :=
    fun hl => PutUvarint_fault buf x hx (by omega)
  have hroom : encN x + 1 ≤ buf.length → ∃ r, PutUvarint buf x = Outcome.ret r :=
    fun hl => ⟨_, PutUvarint_eq buf x hx (by omega)⟩
  refine ⟨⟨?_, fun hl => ⟨buf, hshort hl⟩⟩, hshort, hroom⟩
  rintro ⟨b, hb⟩
  by_contra hcon
  obtain ⟨r, hr⟩ := hroom (by omega)
  rw [hr] at hb
  cases hb

/-- Instance of C19 at a one-byte buffer and `x = 300`, whose encoding needs
two bytes. -/
theorem PutUvarint_fault_iff_witness :
    PutUvarint [0xaa] 300 = Outcome.fault [0xaa] ∧
      ∃ r, PutUvarint [0xaa, 0xbb] 300 = Outcome.ret r :=
  ⟨(PutUvarint_fault_iff [0xaa] 300 (by decide)).2.1
      (by rw [← encN_eq_bitlength 300 (by decide)]; decide),
    (PutUvarint_fault_iff [0xaa, 0xbb] 300 (by decide)).2.2
      (by rw [← encN_eq_bitlength 300 (by decide)]; decide)⟩

/-- C20. The signed encoded length depends only on the magnitude range: for
every `int64` `x` and every `k` in `1..9`, `AppendVarint` appends at most `k`
bytes if and only if `-2 ^ (7k-1) <= x < 2 ^ (7k-1)`; hence exactly 1 byte iff
`-64 <= x <= 63` (`-64 -> 7f`, `63 -> 7e`, while `-65` and `64` take 2 bytes),
at most 3 bytes for every int16-range value, at most 5 for every int32-range
value, and at most 10 for every `int64`. -/
theorem AppendVarint_length_range (p : List Nat) (x : Int) (hx : IsInt64 x) :
    (∀ k : Nat, 1 ≤ k → k ≤ 9 →
        ((AppendVarint p x).length ≤ p.length + k ↔
          -(2 ^ (7 * k - 1) : Int) ≤ x ∧ x < 2 ^ (7 * k - 1))) ∧
      ((AppendVarint p x).length = p.length + 1 ↔ -64 ≤ x ∧ x ≤ 63) ∧
      (-(2 ^ 15) ≤ x → x < 2 ^ 15 → (AppendVarint p x).length ≤ p.length + 3) ∧
      (-(2 ^ 31) ≤ x → x < 2 ^ 31 → (AppendVarint p x).length ≤ p.length + 5) ∧
      (AppendVarint p x).length ≤ p.length + 10 ∧
      AppendVarint [] (-64) = [0x7f] ∧ AppendVarint [] 63 = [0x7e] ∧
      (AppendVarint [] (-65)).length = 2 ∧ (AppendVarint [] 64).length = 2 := by
  have hlen := AppendVarint_length p x hx
  refine ⟨?_, ?_, ?_, ?_, ?_, by decide, by decide, by decide, by decide⟩
  · intro k hk1 _
    obtain ⟨j, rfl⟩ : ∃ j, k = j + 1 := ⟨k - 1, by omega⟩
    rw [show 7 * (j + 1) - 1 = 7 * j + 6 by omega]
    exact AppendVarint_length_le_iff p x hx j
  · have h := AppendVarint_length_le_iff p x hx 0
    norm_num at h
    have h2 : (-64 ≤ x ∧ x ≤ 63) ↔ (-64 ≤ x ∧ x < 64) := by omega
    rw [h2, ← h, hlen]
    omega
  · intro h1 h2
    rw [AppendVarint_length_le_iff p x hx 2]
    norm_num
    omega
  · intro h1 h2
    rw [AppendVarint_length_le_iff p x hx 4]
    norm_num
    omega
  · have := encN_le (zig x)
    omega

/-- Instance of C20 at the prefix `"p"`, `x = -65` and `k = 2`. -/
theorem AppendVarint_length_range_witness :
    ((AppendVarint [112] (-65)).length ≤ ([112] : List Nat).length + 2 ↔
        -(2 ^ (7 * 2 - 1) : Int) ≤ -65 ∧ (-65 : Int) < 2 ^ (7 * 2 - 1)) ∧
      (AppendVarint [112] (-65)).length ≤ ([112] : List Nat).length + 3 ∧
      (AppendVarint [112] (-65)).length ≤ ([112] : List Nat).length + 5 :=
  ⟨(AppendVarint_length_range [112] (-65) (by decide)).1 2 (by decide) (by decide),
    (AppendVarint_length_range [112] (-65) (by decide)).2.2.1 (by decide) (by decide),
    (AppendVarint_length_range [112] (-65) (by decide)).2.2.2.1 (by decide) (by decide)⟩

end Rvarint
